import Mathlib

/-!
Verification of the ACT_Comparision repository core: the segmenter
(`src/parser.py`), the aligner/classifier (`src/compare.py`) and the
word-level inline diff.  Python strings are modelled as lists of
characters (`Str := List Char`); Python's text operations (`strip`,
`split`, `splitlines`, `lower`) are embedded over that representation.
Fuzzy similarity scores are modelled as exact rationals: the library
computes `100 - 100*dist/total` in IEEE doubles, which agrees with the
exact rational value on every threshold comparison (`>= 90`, `>= 80`,
`>= 65`) for inputs of any realistic size, since the rational score can
only be within double-rounding error of a threshold by being equal to it.
-/

/-- Python strings as lists of characters. -/
abbrev Str := List Char

/-- Characters treated as whitespace by Python's `str.strip()` / `str.split()`
(ASCII whitespace, the C1 separators, NEL, NBSP and the Unicode space
category). -/
def pyIsSpace (c : Char) : Bool :=
  c == ' ' || c == '\t' || c == '\n' || c.val == 11 || c.val == 12 || c == '\r' ||
  c.val == 28 || c.val == 29 || c.val == 30 || c.val == 31 || c.val == 133 ||
  c.val == 160 || c.val == 0x1680 || (0x2000 ≤ c.val && c.val ≤ 0x200a) ||
  c.val == 0x2028 || c.val == 0x2029 || c.val == 0x202f || c.val == 0x205f ||
  c.val == 0x3000

/-- Python `str.strip()`: drop leading and trailing whitespace. -/
def pyStrip (s : Str) : Str :=
  ((s.dropWhile pyIsSpace).reverse.dropWhile pyIsSpace).reverse

/-- Helper for `pySplit`: accumulates the current word (reversed). -/
def pySplitAux : Str → Str → List Str
  | [], acc => if acc = [] then [] else [acc.reverse]
  | c :: cs, acc =>
    if pyIsSpace c then
      if acc = [] then pySplitAux cs [] else acc.reverse :: pySplitAux cs []
    else pySplitAux cs (c :: acc)

/-- Python `str.split()` with no argument: split on whitespace runs,
dropping empty words. -/
def pySplit (s : Str) : List Str := pySplitAux s []

/-- Characters at which Python `str.splitlines()` breaks a line. -/
def pyIsLineBreak (c : Char) : Bool :=
  c == '\n' || c == '\r' || c.val == 11 || c.val == 12 || c.val == 28 ||
  c.val == 29 || c.val == 30 || c.val == 133 || c.val == 0x2028 || c.val == 0x2029

/-- Helper for `pySplitlines`: accumulates the current line (reversed);
a `"\r\n"` pair counts as a single line break. -/
def pySplitlinesAux : Str → Str → List Str
  | [], acc => if acc = [] then [] else [acc.reverse]
  | '\r' :: '\n' :: cs, acc => acc.reverse :: pySplitlinesAux cs []
  | c :: cs, acc =>
    if pyIsLineBreak c then acc.reverse :: pySplitlinesAux cs []
    else pySplitlinesAux cs (c :: acc)

/-- Python `str.splitlines()`. -/
def pySplitlines (s : Str) : List Str := pySplitlinesAux s []

/-- Python `sep.join(parts)`. -/
def joinWith (sep : Str) : List Str → Str
  | [] => []
  | [x] => x
  | x :: y :: xs => x ++ sep ++ joinWith sep (y :: xs)

/-- `" ".join(parts)`. -/
def joinSpace (l : List Str) : Str := joinWith [' '] l

/-- `"\n".join(parts)`. -/
def joinNl (l : List Str) : Str := joinWith ['\n'] l

/-- Python `str.lower()` (the repository only lowercases ASCII data). -/
def pyLower (s : Str) : Str := s.map Char.toLower

/-- Codepoint-lexicographic order on strings, as Python compares `str`. -/
def strLt : Str → Str → Bool
  | [], [] => false
  | [], _ :: _ => true
  | _ :: _, [] => false
  | a :: as, b :: bs =>
    if a.val < b.val then true else if b.val < a.val then false else strLt as bs

/-- Insert into a sorted list of strings (ascending). -/
def insSorted (x : Str) : List Str → List Str
  | [] => [x]
  | y :: ys => if strLt x y then x :: y :: ys else y :: insSorted x ys

/-- Sort a list of strings ascending by codepoint order, as Python `sorted`. -/
def sortStrs (l : List Str) : List Str := l.foldr insSorted []

/-- Remove adjacent duplicates from a sorted list, yielding set semantics. -/
def dedupAdj : List Str → List Str
  | [] => []
  | [x] => [x]
  | x :: y :: ys => if x = y then dedupAdj (y :: ys) else x :: dedupAdj (y :: ys)

/-- `sorted(set(s.split()))`: the sorted, de-duplicated whitespace tokens of a
string, as rapidfuzz prepares token sets. -/
def sortedTokens (s : Str) : List Str := dedupAdj (sortStrs (pySplit s))

/-- One row update of the longest-common-subsequence table.  `prev` carries
the previous row (entries for b-prefixes of length 1..m), `diag` and `left`
the neighbouring entries already computed. -/
def lcsRowAux (c : Char) : Str → List Nat → Nat → Nat → List Nat
  | [], _, _, _ => []
  | b :: bs, prev, diag, left =>
    let up := prev.headD 0
    let cur := if c = b then diag + 1 else max left up
    cur :: lcsRowAux c bs prev.tail up cur

/-- Length of the longest common subsequence of two character lists. -/
def lcsLen (as bs : Str) : Nat :=
  (as.foldl (fun row c => lcsRowAux c bs row 0 0) (List.replicate bs.length 0)).getLastD 0

/-- The Indel (insertion/deletion) edit distance, as rapidfuzz's
`Indel.distance`: `len1 + len2 - 2 * lcs`. -/
def indelDist (a b : Str) : Nat := a.length + b.length - 2 * lcsLen a b

/-- A non-negative rational in lowest terms, used for similarity scores.
All scores the library produces lie in [0, 100]; the library computes them
as IEEE doubles, which this exact representation models (the two agree on
every threshold comparison the code performs). -/
structure Score where
  num : Nat
  den : Nat
  deriving DecidableEq, Repr, Inhabited

/-- Build a `Score` in lowest terms from numerator and denominator.  The
library only ever divides by positive totals; the zero-denominator case is
unreachable and mapped to the score 0. -/
def mkScore (n d : Nat) : Score :=
  if d = 0 then ⟨0, 1⟩ else ⟨n / Nat.gcd n d, d / Nat.gcd n d⟩

/-- The score `n` (an integer value such as 0, 100, a threshold). -/
def natScore (n : Nat) : Score := ⟨n, 1⟩

/-- Comparison of scores by cross-multiplication (denominators positive). -/
def scoreLe (a b : Score) : Bool := a.num * b.den ≤ b.num * a.den

/-- Strict comparison of scores. -/
def scoreLtB (a b : Score) : Bool := a.num * b.den < b.num * a.den

/-- Larger of two scores, as Python `max`. -/
def scoreMax (a b : Score) : Score := if scoreLe a b then b else a

/-- The normalised Indel similarity `100 - 100 * dist / total` as an exact
rational. -/
def normSim (dist total : Nat) : Score := mkScore (100 * (total - dist)) total

/-- rapidfuzz `fuzz.token_set_ratio(s1, s2)` (the score the repository calls
for all fuzzy comparisons), transcribed from rapidfuzz's reference
implementation: split both strings into sorted de-duplicated token sets,
return 0 if either is empty, 100 if one token set contains the other
(non-trivially), and otherwise the maximum of the Indel ratio between the
joined difference strings (normalised as if the joined intersection were
prepended to both) and the two intersection-versus-whole ratios. -/
def token_set_score (s1 s2 : Str) : Score :=
  let ta := sortedTokens s1
  let tb := sortedTokens s2
  if ta.isEmpty || tb.isEmpty then natScore 0
  else
    let sect := ta.filter (fun t => tb.contains t)
    let dab := ta.filter (fun t => !tb.contains t)
    let dba := tb.filter (fun t => !ta.contains t)
    if !sect.isEmpty && (dab.isEmpty || dba.isEmpty) then natScore 100
    else
      let abJ := joinSpace dab
      let baJ := joinSpace dba
      let sectLen := (joinSpace sect).length
      let bonus : Nat := if sectLen = 0 then 0 else 1
      let sectAbLen := sectLen + bonus + abJ.length
      let sectBaLen := sectLen + bonus + baJ.length
      let result := normSim (indelDist abJ baJ) (sectAbLen + sectBaLen)
      if sectLen = 0 then result
      else
        let abR := normSim (bonus + abJ.length) (sectLen + sectAbLen)
        let baR := normSim (bonus + baJ.length) (sectLen + sectBaLen)
        scoreMax result (scoreMax abR baR)

/-- `_status(old, new)` from `src/compare.py`: equal after strip means
`Unchanged` at 100, otherwise classify the token-set score against the fixed
thresholds 90 and 65. -/
def statusAndSim (old new : Str) : Str × Score :=
  if pyStrip old = pyStrip new then ("Unchanged".data, natScore 100)
  else
    let sim := token_set_score old new
    if scoreLe (natScore 90) sim then ("Minor edit".data, sim)
    else if scoreLe (natScore 65) sim then ("Modified".data, sim)
    else ("Substantially modified".data, sim)

example : pySplit "A fine of 100 shall apply.".data =
    ["A".data, "fine".data, "of".data, "100".data, "shall".data, "apply.".data] := by
  decide

example : token_set_score "A fine of 100 shall apply.".data "A fine of 500 shall apply.".data
    = ⟨1250, 13⟩ := by decide

example : statusAndSim "abc".data " abc ".data = ("Unchanged".data, natScore 100) := by decide

example : (statusAndSim "A fine of 100 shall apply.".data "A fine of 500 shall apply.".data).1
    = "Minor edit".data := by decide

/-- ASCII word characters, Python regex `\w` on the data this repository
handles (Python additionally accepts non-ASCII letters). -/
def isWordChar (c : Char) : Bool := c.isAlpha || c.isDigit || c == '_'

/-- Python regex `\b` at the position between `prev` (already consumed) and
`rest`: a word boundary holds when exactly one side is a word character
(end of input counts as a non-word character). -/
def boundaryAt (prev : Char) (rest : Str) : Bool :=
  match rest with
  | [] => isWordChar prev
  | d :: _ => !(isWordChar prev == isWordChar d)

/-- Case-insensitive literal prefix match (the pattern is given lowercase);
returns the remainder on success.  Models `re.I` keyword alternatives. -/
def dropCiPrefix : Str → Str → Option Str
  | [], s => some s
  | _ :: _, [] => none
  | p :: ps, c :: cs => if Char.toLower c = p then dropCiPrefix ps cs else none

/-- Characters of the class `[ivx]` under `re.I`. -/
def isIvx (c : Char) : Bool :=
  let l := Char.toLower c
  l == 'i' || l == 'v' || l == 'x'

/-- `PAT_CHAPTER_PART = ^\s*(chapter|part|schedule)\s+([ivx]+|\d+)\b.*$`
with `re.I`, used for its truthiness only.  The `([ivx]+|\d+)` run is taken
maximally: a shorter match is followed by another character of the same
class, which is a word character, so the `\b` can only hold after the
maximal run. -/
def matchChapterPart (line : Str) : Bool :=
  let s := line.dropWhile pyIsSpace
  let kw := match dropCiPrefix "chapter".data s with
    | some r => some r
    | none => match dropCiPrefix "part".data s with
      | some r => some r
      | none => dropCiPrefix "schedule".data s
  match kw with
  | none => false
  | some r1 =>
    match r1 with
    | [] => false
    | c :: _ =>
      if !pyIsSpace c then false
      else
        let r2 := r1.dropWhile pyIsSpace
        match r2 with
        | [] => false
        | d :: _ =>
          if isIvx d then boundaryAt ((r2.takeWhile isIvx).getLastD d) (r2.dropWhile isIvx)
          else if d.isDigit then
            boundaryAt ((r2.takeWhile Char.isDigit).getLastD d) (r2.dropWhile Char.isDigit)
          else false

/-- The character class `[A-Z \-\&\.\,]` of `PAT_SHOUTY`. -/
def shoutyClass (c : Char) : Bool :=
  c.isUpper || c == ' ' || c == '-' || c == '&' || c == '.' || c == ','

/-- `PAT_SHOUTY = ^\s*[A-Z][A-Z \-\&\.\,]{5,}$` (case-sensitive): an
uppercase letter followed by at least five class characters reaching the
end of the line. -/
def matchShouty (line : Str) : Bool :=
  match line.dropWhile pyIsSpace with
  | [] => false
  | c :: rest => c.isUpper && decide (5 ≤ rest.length) && rest.all shoutyClass

/-- The character class `[A-Za-z\-]` following the digits in `PAT_SECTION`. -/
def sectionClass (c : Char) : Bool := c.isAlpha || c == '-'

/-- Backtracking over the greedy `[A-Za-z\-]*` of `PAT_SECTION`: try the
longest kept run first, dropping trailing characters until the following
`\b` holds.  `revRun` is the reversed run kept so far, `rest` what follows;
returns the kept run reversed. -/
def secBacktrackRev (prev : Char) : Str → Str → Option Str
  | [], rest => if boundaryAt prev rest then some [] else none
  | c :: cs, rest =>
    if boundaryAt c rest then some (c :: cs) else secBacktrackRev prev cs (c :: rest)

/-- `PAT_SECTION = ^\s*(section|sec\.)\s+(\d+[A-Za-z\-]*)\b(.*)$` with
`re.I`; returns group 2 on a match.  The alternatives `section` and `sec.`
differ at their fourth character, so at most one of them can apply. -/
def matchSection (line : Str) : Option Str :=
  let s := line.dropWhile pyIsSpace
  let kw := match dropCiPrefix "section".data s with
    | some r => some r
    | none => dropCiPrefix "sec.".data s
  match kw with
  | none => none
  | some r1 =>
    match r1 with
    | [] => none
    | c :: _ =>
      if !pyIsSpace c then none
      else
        let r2 := r1.dropWhile pyIsSpace
        let digits := r2.takeWhile Char.isDigit
        if digits.isEmpty then none
        else
          let r3 := r2.dropWhile Char.isDigit
          match secBacktrackRev (digits.getLastD '0') (r3.takeWhile sectionClass).reverse
              (r3.dropWhile sectionClass) with
          | some keptRev => some (digits ++ keptRev.reverse)
          | none => none

/-- `dropWhile` never lengthens a list (used for termination below). -/
theorem dropWhile_length_le (p : Char → Bool) :
    ∀ l : Str, (List.dropWhile p l).length ≤ l.length
  | [] => Nat.le_refl _
  | c :: cs => by
    simp only [List.dropWhile_cons]
    split
    · exact Nat.le_succ_of_le (dropWhile_length_le p cs)
    · exact Nat.le_refl _

/-- Maximal-munch parse of `\d+(\.\d+)*` already positioned at the digits;
returns (matched text, remainder).  Backtracking over the greedy pieces
never helps here: a shortened `\d+` stops before a digit and a dropped
`(\.\d+)` repetition stops before a `.`, and no continuation of the
enclosing patterns can start with a digit or a `.`. -/
def numHeadingReps (s : Str) (acc : Str) : Str × Str :=
  match s with
  | '.' :: rest =>
    let ds := rest.takeWhile Char.isDigit
    if ds.isEmpty then (acc, s)
    else numHeadingReps (rest.dropWhile Char.isDigit) (acc ++ '.' :: ds)
  | _ => (acc, s)
termination_by s.length
decreasing_by
  simp only [List.length_cons]
  have := dropWhile_length_le Char.isDigit rest
  omega

/-- The group `(\d+(\.\d+)*)` at the head of `s`; returns the matched text
and the remainder. -/
def numHeadingGroup (s : Str) : Option (Str × Str) :=
  let ds := s.takeWhile Char.isDigit
  if ds.isEmpty then none
  else some (numHeadingReps (s.dropWhile Char.isDigit) ds)

/-- `PAT_NUM_HEADING = ^\s*(\d+(\.\d+)*)\s+[\w\(\)]`, used for its
truthiness only. -/
def matchNumHeading (line : Str) : Bool :=
  match numHeadingGroup (line.dropWhile pyIsSpace) with
  | none => false
  | some (_, rest) =>
    match rest with
    | [] => false
    | c :: _ =>
      pyIsSpace c &&
        (match rest.dropWhile pyIsSpace with
         | [] => false
         | d :: _ => isWordChar d || d == '(' || d == ')')

/-- The search pattern `(section|sec\.)\s+(\d+[A-Za-z\-]*)` (`re.I`, no word
boundary) tried at one fixed position; returns group 2. -/
def sectionNumAt (s : Str) : Option Str :=
  let kw := match dropCiPrefix "section".data s with
    | some r => some r
    | none => dropCiPrefix "sec.".data s
  match kw with
  | none => none
  | some r1 =>
    match r1 with
    | [] => none
    | c :: _ =>
      if !pyIsSpace c then none
      else
        let r2 := r1.dropWhile pyIsSpace
        let ds := r2.takeWhile Char.isDigit
        if ds.isEmpty then none
        else some (ds ++ (r2.dropWhile Char.isDigit).takeWhile sectionClass)

/-- `re.search` of the pattern above: leftmost position wins. -/
def searchSectionNum : Str → Option Str
  | [] => none
  | c :: cs =>
    match sectionNumAt (c :: cs) with
    | some g => some g
    | none => searchSectionNum cs

/-- `^\s*(\d+(\.\d+)*)` against a heading; returns group 1. -/
def matchNumRef (heading : Str) : Option Str :=
  match numHeadingGroup (heading.dropWhile pyIsSpace) with
  | none => none
  | some (g, _) => some g

/-- `^\s*(chapter|part)\s+([ivx]+|\d+)\b` with `re.I`; returns
(group 1, group 2) as matched (original case). -/
def matchChapterPartRef (heading : Str) : Option (Str × Str) :=
  let s := heading.dropWhile pyIsSpace
  let kw : Option Nat := match dropCiPrefix "chapter".data s with
    | some _ => some 7
    | none => match dropCiPrefix "part".data s with
      | some _ => some 4
      | none => none
  match kw with
  | none => none
  | some n =>
    let g1 := s.take n
    match s.drop n with
    | [] => none
    | c :: r1 =>
      if !pyIsSpace c then none
      else
        let r2 := (c :: r1).dropWhile pyIsSpace
        match r2 with
        | [] => none
        | d :: _ =>
          if isIvx d then
            if boundaryAt ((r2.takeWhile isIvx).getLastD d) (r2.dropWhile isIvx) then
              some (g1, r2.takeWhile isIvx)
            else none
          else if d.isDigit then
            if boundaryAt ((r2.takeWhile Char.isDigit).getLastD d) (r2.dropWhile Char.isDigit) then
              some (g1, r2.takeWhile Char.isDigit)
            else none
          else none

/-- The class `[a-z0-9]` kept by the slug substitution (applied after
`lower()`). -/
def isSlugKeep (c : Char) : Bool := c.isLower || c.isDigit

/-- `re.sub(r'<class>+', rep, s)` for a single replacement character:
every maximal run of characters outside `keep` becomes one `rep`.  The
flag records whether the previous character was part of such a run. -/
def collapseRuns (keep : Char → Bool) (rep : Char) : Str → Bool → Str
  | [], _ => []
  | c :: cs, inRun =>
    if keep c then c :: collapseRuns keep rep cs false
    else if inRun then collapseRuns keep rep cs true
    else rep :: collapseRuns keep rep cs true

/-- Python `s.strip(c)` for a single character. -/
def stripChar (c : Char) (s : Str) : Str :=
  ((s.dropWhile (· == c)).reverse.dropWhile (· == c)).reverse

/-- `_make_section_ref(heading)` from `src/parser.py`: empty heading gives
the empty reference; otherwise search for a section number, then a leading
dotted numeral, then a chapter/part marker, then fall back to an `h_` slug
(lowercased, non-`[a-z0-9]` runs collapsed to `_`, stripped of underscores,
truncated to 40 characters). -/
def _make_section_ref (heading : Str) : Str :=
  if heading.isEmpty then []
  else match searchSectionNum heading with
    | some num => "section_".data ++ pyLower num
    | none => match matchNumRef heading with
      | some g => "num_".data ++ g
      | none => match matchChapterPartRef heading with
        | some (kw, num) => pyLower kw ++ '_' :: pyLower num
        | none => "h_".data ++ (stripChar '_' (collapseRuns isSlugKeep '_' (pyLower heading) false)).take 40

/-- `PAT_SUBSEC_MAIN = ^\s*\(\s*(\d+)\s*\)\s+(.*)`: returns (group 1,
group 2).  The greedy `\d+`, `\s*` and `\s+` pieces are taken maximally;
shorter matches always leave a following character of the same class in a
position that cannot match the next piece, so maximal munch is faithful. -/
def subsecNum (ln : Str) : Option (Str × Str) :=
  match ln.dropWhile pyIsSpace with
  | '(' :: r1 =>
    let r2 := r1.dropWhile pyIsSpace
    let ds := r2.takeWhile Char.isDigit
    if ds.isEmpty then none
    else
      match (r2.dropWhile Char.isDigit).dropWhile pyIsSpace with
      | ')' :: r4 =>
        match r4 with
        | c :: _ => if pyIsSpace c then some (ds, r4.dropWhile pyIsSpace) else none
        | [] => none
      | _ => none
  | _ => none

/-- `PAT_SUBSEC_ALPHA = ^\s*\(\s*([a-z])\s*\)\s+(.*)` (case-sensitive,
exactly one lowercase letter): returns (group 1, group 2). -/
def subsecAlpha (ln : Str) : Option (Str × Str) :=
  match ln.dropWhile pyIsSpace with
  | '(' :: r1 =>
    match r1.dropWhile pyIsSpace with
    | a :: r2 =>
      if a.isLower then
        match r2.dropWhile pyIsSpace with
        | ')' :: r4 =>
          match r4 with
          | c :: _ => if pyIsSpace c then some ([a], r4.dropWhile pyIsSpace) else none
          | [] => none
        | _ => none
      else none
    | [] => none
  | _ => none

/-- `PAT_SUBSEC_ROMAN = ^\s*\(\s*([ivx]+)\s*\)\s+(.*)` with `re.I` (so
upper-case roman numerals also match; the group keeps the original case):
returns (group 1, group 2). -/
def subsecRoman (ln : Str) : Option (Str × Str) :=
  match ln.dropWhile pyIsSpace with
  | '(' :: r1 =>
    let r2 := r1.dropWhile pyIsSpace
    let run := r2.takeWhile isIvx
    if run.isEmpty then none
    else
      match (r2.dropWhile isIvx).dropWhile pyIsSpace with
      | ')' :: r4 =>
        match r4 with
        | c :: _ => if pyIsSpace c then some (run, r4.dropWhile pyIsSpace) else none
        | [] => none
      | _ => none
  | _ => none

/-- The per-line marker test of `_split_subsections`: the numeric,
alphabetic and roman patterns in that priority order, first match winning;
on success, the bracketed subsection reference and the remainder of the
line. -/
def subsecMarker (ln : Str) : Option (Str × Str) :=
  match subsecNum ln with
  | some (g, rest) => some ('(' :: g ++ [')'], rest)
  | none => match subsecAlpha ln with
    | some (g, rest) => some ('(' :: g ++ [')'], rest)
    | none => match subsecRoman ln with
      | some (g, rest) => some ('(' :: g ++ [')'], rest)
      | none => none

/-- Accumulator of `_split_subsections`: emitted (ref, text) pairs, the
current marker and the current buffer of lines. -/
structure SubsecState where
  out : List (Str × Str)
  ref : Option Str
  buf : List Str
  deriving Repr

/-- The inner `flush()` of `_split_subsections`: emit the joined, stripped
buffer under the current (or empty) reference; a no-op on an empty buffer. -/
def subsecFlush (st : SubsecState) : SubsecState :=
  if st.buf.isEmpty then st
  else ⟨st.out ++ [(st.ref.getD [], pyStrip (joinNl st.buf))], none, []⟩

/-- One line of `_split_subsections`: a marker line flushes and starts a new
subsection whose buffer begins with the remainder of the line; any other
line accumulates. -/
def subsecStep (st : SubsecState) (ln : Str) : SubsecState :=
  match subsecMarker ln with
  | some (ref, rest) =>
    let st' := subsecFlush st
    ⟨st'.out, some ref, [rest]⟩
  | none => ⟨st.out, st.ref, st.buf ++ [ln]⟩

/-- `_split_subsections(body)` from `src/parser.py`: scan the body line by
line for subsection markers, then drop pairs whose text strips to empty. -/
def _split_subsections (body : Str) : List (Str × Str) :=
  (subsecFlush ((pySplitlines body).foldl subsecStep ⟨[], none, []⟩)).out.filter
    (fun t => !(pyStrip t.2).isEmpty)

/-- One hierarchical unit produced by `split_sections` (a Python dict with
these six string fields). -/
structure SecUnit where
  topic : Str
  subtopic : Str
  section_ref : Str
  section_heading : Str
  subsection_ref : Str
  text : Str
  deriving DecidableEq, Repr, Inhabited

/-- The mutable parsing state of `split_sections`: the running topic and
subtopic, the open section (id, heading, accumulated body lines) and the
units emitted so far. -/
structure ParseState where
  topic : Option Str
  subtopic : Option Str
  curId : Option Str
  curHeading : Option Str
  curBody : List Str
  units : List SecUnit
  deriving Repr

/-- Python `a or b` on strings: `b` when `a` is empty (falsy), else `a`. -/
def pyOrStr (a b : Str) : Str := if a.isEmpty then b else a

/-- `flush_section()` from `src/parser.py`: emit the open section (split
into subsections when markers are present, one catch-all unit otherwise)
and reset the open-section state.  A call with no pending heading and no
body lines is a no-op, and a heading-less body that strips to empty only
resets the state. -/
def flush_section (st : ParseState) : ParseState :=
  if st.curHeading.isNone && st.curBody.isEmpty then st
  else
    let body := pyStrip (joinNl st.curBody)
    if body.isEmpty && (st.curHeading.getD []).isEmpty then
      { st with curId := none, curHeading := none, curBody := [] }
    else
      let subs := _split_subsections body
      let secRef := pyOrStr (st.curId.getD []) ( _make_section_ref (st.curHeading.getD []))
      let newUnits :=
        if subs.isEmpty then
          [⟨st.topic.getD [], st.subtopic.getD [], secRef, st.curHeading.getD [], [], body⟩]
        else
          subs.map (fun p =>
            (⟨st.topic.getD [], st.subtopic.getD [], secRef, st.curHeading.getD [], p.1,
              pyStrip p.2⟩ : SecUnit))
      { st with curId := none, curHeading := none, curBody := [],
                units := st.units ++ newUnits }

/-- One line of the `split_sections` loop, in the source's priority order:
blank lines accumulate; chapter/part/schedule markers set the topic;
shouty non-section headings set the subtopic; section markers open a new
section; numeric headings outside a section may set the subtopic and also
accumulate; everything else accumulates into the open body. -/
def parseLine (st : ParseState) (raw : Str) : ParseState :=
  let line := pyStrip raw
  if line.isEmpty then { st with curBody := st.curBody ++ [raw] }
  else if matchChapterPart line then
    let st' := flush_section st
    { st' with topic := some line, subtopic := none }
  else if matchShouty line && (matchSection line).isNone then
    let st' := flush_section st
    { st' with subtopic := some line }
  else
    match matchSection line with
    | some num =>
      let st' := flush_section st
      { st' with curId := some ("section_".data ++ pyLower num), curHeading := some line }
    | none =>
      if matchNumHeading line && st.curHeading.isNone then
        let st' := flush_section st
        { st' with
            subtopic := (match st'.subtopic with | none => some line | some s => some s),
            curBody := st'.curBody ++ [raw] }
      else { st with curBody := st.curBody ++ [raw] }

/-- `re.sub(r'\n{3,}', '\n\n', s)`: the pending count of newlines just
read is emitted unchanged when below three and as exactly two otherwise. -/
def collapseNlRuns : Str → Nat → Str
  | [], n => if 3 ≤ n then ['\n', '\n'] else List.replicate n '\n'
  | '\n' :: cs, n => collapseNlRuns cs (n + 1)
  | c :: cs, n =>
    (if 3 ≤ n then ['\n', '\n'] else List.replicate n '\n') ++ c :: collapseNlRuns cs 0

/-- `normalize(text)` from `src/parser.py`: NBSP to space, collapse
space/tab runs, CR to LF, collapse runs of three or more newlines to two,
strip. -/
def pyNormalize (s : Str) : Str :=
  let s1 := s.map (fun c => if c.val == 160 then ' ' else c)
  let s2 := collapseRuns (fun c => !(c == ' ' || c == '\t')) ' ' s1 false
  let s3 := s2.map (fun c => if c == '\r' then '\n' else c)
  pyStrip (collapseNlRuns s3 0)

/-- `split_sections(text)` from `src/parser.py`: normalize, fold the line
classifier over the lines, flush the final section, then backfill any
empty `section_ref` from the heading with `"auto_section"` as the last
resort. -/
def split_sections (text : Str) : List SecUnit :=
  let st := (pySplitlines (pyNormalize text)).foldl parseLine ⟨none, none, none, none, [], []⟩
  (flush_section st).units.map (fun u =>
    if u.section_ref.isEmpty then
      { u with section_ref := pyOrStr ( _make_section_ref u.section_heading) "auto_section".data }
    else u)

/-- The composite key of a unit: (topic, subtopic, section_ref,
subsection_ref), as `FIELDS_KEY` in `src/compare.py`. -/
def unitKey (u : SecUnit) : Str × Str × Str × Str :=
  (u.topic, u.subtopic, u.section_ref, u.subsection_ref)

/-- Keys of the aligner's maps. -/
abbrev UKey := Str × Str × Str × Str

/-- Insert-or-replace into an association list, keeping first-insertion
order and the last value, as a Python dict comprehension behaves on
duplicate keys. -/
def upsert (m : List (UKey × SecUnit)) (k : UKey) (v : SecUnit) : List (UKey × SecUnit) :=
  match m with
  | [] => [(k, v)]
  | (k', v') :: rest => if k' = k then (k, v) :: rest else (k', v') :: upsert rest k v

/-- `{ key(u): u for u in units }`. -/
def buildMap (us : List SecUnit) : List (UKey × SecUnit) :=
  us.foldl (fun m u => upsert m (unitKey u) u) []

/-- Association-list lookup (Python dict membership / indexing). -/
def alookup (m : List (UKey × SecUnit)) (k : UKey) : Option SecUnit :=
  match m with
  | [] => none
  | (k', v) :: rest => if k' = k then some v else alookup rest k

/-- One aligner output record (`_row` in `src/compare.py`): the nullable
old- and new-side projections plus status, similarity and match method. -/
structure MatchRow where
  old_topic : Option Str
  old_subtopic : Option Str
  old_section_ref : Option Str
  old_section_heading : Option Str
  old_subsection_ref : Option Str
  old_text : Option Str
  new_topic : Option Str
  new_subtopic : Option Str
  new_section_ref : Option Str
  new_section_heading : Option Str
  new_subsection_ref : Option Str
  new_text : Option Str
  status : Str
  similarity : Score
  match_method : Str
  deriving DecidableEq, Repr, Inhabited

/-- `_row(ou, nu, status, sim, how)` from `src/compare.py`. -/
def _row (ou nu : Option SecUnit) (status : Str) (sim : Score) (how : Str) : MatchRow :=
  ⟨ou.map SecUnit.topic, ou.map SecUnit.subtopic, ou.map SecUnit.section_ref,
   ou.map SecUnit.section_heading, ou.map SecUnit.subsection_ref, ou.map SecUnit.text,
   nu.map SecUnit.topic, nu.map SecUnit.subtopic, nu.map SecUnit.section_ref,
   nu.map SecUnit.section_heading, nu.map SecUnit.subsection_ref, nu.map SecUnit.text,
   status, sim, how⟩

/-- `_row_updates_from_new(nu, status, sim, how)` applied to a row by
`r.update(...)`: absorb the new-side fields, never leaving a `Removed`
status. -/
def _row_updates_from_new (r : MatchRow) (nu : SecUnit) (status : Str) (sim : Score)
    (how : Str) : MatchRow :=
  { r with
    new_topic := some nu.topic, new_subtopic := some nu.subtopic,
    new_section_ref := some nu.section_ref, new_section_heading := some nu.section_heading,
    new_subsection_ref := some nu.subsection_ref, new_text := some nu.text,
    status := if status = "Removed".data then "Modified".data else status,
    similarity := sim, match_method := how }

/-- One old-map entry of phase 1: an `exact_key` record with computed
status when the key exists on the new side (consuming that key), else a
provisional `Removed` record. -/
def phase1Step (nm : List (UKey × SecUnit)) (acc : List MatchRow × List UKey)
    (p : UKey × SecUnit) : List MatchRow × List UKey :=
  match alookup nm p.1 with
  | some nu =>
    let ss := statusAndSim p.2.text nu.text
    (acc.1 ++ [ _row (some p.2) (some nu) ss.1 ss.2 "exact_key".data], acc.2 ++ [p.1])
  | none =>
    (acc.1 ++ [ _row (some p.2) none "Removed".data (natScore 0) "unmatched_old".data],
     acc.2)

/-- Phase 1 of `match_sections`: fold `phase1Step` over the old map in
order; also returns the list of consumed new keys. -/
def phase1 (om nm : List (UKey × SecUnit)) : List MatchRow × List UKey :=
  om.foldl (phase1Step nm) ([], [])

/-- `v.get("section_ref") == r.get("old_section_ref")` (a Python string
compared against a possibly-missing value; comparing with `None` is
`False`). -/
def sameOldRef (r : MatchRow) (v : SecUnit) : Bool :=
  match r.old_section_ref with
  | some s => v.section_ref = s
  | none => false

/-- The query string of phase 2: old subtopic and old section heading,
space-joined (both present on every provisionally-`Removed` row, which is
the only place this is used; `Option.getD` realises Python's `r.get`). -/
def rowQuery (r : MatchRow) : Str :=
  (r.old_subtopic.getD []) ++ ' ' :: (r.old_section_heading.getD [])

/-- The candidate string of phase 2: the candidate's subtopic and section
heading, space-joined and stripped. -/
def candText (v : SecUnit) : Str :=
  pyStrip (v.subtopic ++ ' ' :: v.section_heading)

/-- One candidate of the phase-2 best scan: strict `score > best_score`,
so an equal score never displaces the current best. -/
def bestStep (query : Str) (b : Option ((UKey × SecUnit) × Score))
    (p : UKey × SecUnit) : Option ((UKey × SecUnit) × Score) :=
  let sc := token_set_score query (candText p.2)
  match b with
  | none => some (p, sc)
  | some (bp, bs) => if scoreLtB bs sc then some (p, sc) else some (bp, bs)

/-- The phase-2 best-candidate scan: the first candidate initialises the
best, and only strictly greater scores displace it, so the earliest
maximum wins. -/
def bestCand (query : Str) (cands : List (UKey × SecUnit)) :
    Option ((UKey × SecUnit) × Score) :=
  cands.foldl (bestStep query) none

/-- Remove a key from the remaining-new pool (`remaining_new.pop(kbest)`). -/
def eraseKey (m : List (UKey × SecUnit)) (k : UKey) : List (UKey × SecUnit) :=
  match m with
  | [] => []
  | (k', v) :: rest => if k' = k then rest else (k', v) :: eraseKey rest k

/-- One provisionally-`Removed` record of phase 2 of `match_sections`:
with an empty pool the record is left alone (the source `break`s);
otherwise the candidates are the pool entries sharing the old
`section_ref`, or the whole pool when none do; if the best heading score
reaches 80 the record is upgraded in place and the candidate consumed. -/
def phase2Step (pool : List (UKey × SecUnit)) (r : MatchRow) :
    MatchRow × List (UKey × SecUnit) :=
  if pool.isEmpty then (r, pool)
  else
    let cands0 := pool.filter (fun p => sameOldRef r p.2)
    let cands := if cands0.isEmpty then pool else cands0
    if cands.isEmpty then (r, pool)
    else
      match bestCand (rowQuery r) cands with
      | none => (r, pool)
      | some (bp, bs) =>
        if scoreLe (natScore 80) bs then
          let ss := statusAndSim (r.old_text.getD []) bp.2.text
          ( _row_updates_from_new r bp.2 ss.1 ss.2 "fuzzy_heading".data, eraseKey pool bp.1)
        else (r, pool)

/-- One row of phase 2: rows that are `Removed` when reached go through
`phase2Step` with the current pool; all others pass through unchanged. -/
def phase2Outer (acc : List MatchRow × List (UKey × SecUnit)) (r : MatchRow) :
    List MatchRow × List (UKey × SecUnit) :=
  if r.status = "Removed".data then
    let pr := phase2Step acc.2 r
    (acc.1 ++ [pr.1], pr.2)
  else (acc.1 ++ [r], acc.2)

/-- Phase 2 of `match_sections` over the whole row list, threading the
shrinking pool (processing a row with an empty pool leaves it unchanged,
exactly as the source's early `break` does). -/
def phase2 (rows : List MatchRow) (pool : List (UKey × SecUnit)) :
    List MatchRow × List (UKey × SecUnit) :=
  rows.foldl phase2Outer ([], pool)

/-- `match_sections(old_units, new_units)` from `src/compare.py`: exact key
matching, fuzzy fallback for provisionally removed rows, then `Added`
records for the never-consumed new units. -/
def match_sections (old_units new_units : List SecUnit) : List MatchRow :=
  let om := buildMap old_units
  let nm := buildMap new_units
  let p1 := phase1 om nm
  let remaining := nm.filter (fun p => !p1.2.contains p.1)
  let p2 := phase2 p1.1 remaining
  p2.1 ++ p2.2.map (fun p => _row none (some p.2) "Added".data (natScore 0) "new_only".data)

/-- Python-semantics `_status` applied to possibly-missing (`None`) texts:
the source immediately calls `old.strip()`, so a missing side raises
`AttributeError` rather than being treated as an empty string. -/
def statusOnMissing (old new : Option Str) : Except Str (Str × Score) :=
  match old, new with
  | some o, some n => Except.ok (statusAndSim o n)
  | _, _ => Except.error "AttributeError".data

/-- Append one position to a token's index list in the `b2j` map of
`difflib.SequenceMatcher` (`b2j.setdefault(elt, []).append(i)`). -/
def b2jAdd (m : List (Str × List Nat)) (tok : Str) (i : Nat) : List (Str × List Nat) :=
  match m with
  | [] => [(tok, [i])]
  | (t, is) :: rest => if t = tok then (t, is ++ [i]) :: rest else (t, is) :: b2jAdd rest tok i

/-- The raw `b2j` map: token to ascending positions in `b`. -/
def b2jBuild (b : List Str) : List (Str × List Nat) :=
  b.enum.foldl (fun m p => b2jAdd m p.2 p.1) []

/-- `__chain_b` of `difflib.SequenceMatcher` as invoked by `inline_diff`
(`isjunk = None`, so the junk set is empty): build `b2j` and, when `b` has
at least 200 elements, purge "popular" tokens occurring more than
`len(b)//100 + 1` times. -/
def b2jPurged (b : List Str) : List (Str × List Nat) :=
  let m := b2jBuild b
  if 200 ≤ b.length then
    let ntest := b.length / 100 + 1
    m.filter (fun p => decide (p.2.length ≤ ntest))
  else m

/-- Position list of a token in `b2j` (`b2j.get(a[i], [])`). -/
def b2jGet (m : List (Str × List Nat)) (tok : Str) : List Nat :=
  match m with
  | [] => []
  | (t, is) :: rest => if t = tok then is else b2jGet rest tok

/-- The inner loop of `find_longest_match` over the positions of `a[i]` in
`b` (ascending): skip positions below `blo` (`continue`), stop at `bhi`
(`break`), chain lengths through `j2len` and keep the first strict
maximum.  `j2len.get(j-1, 0)` is 0 at `j = 0` because the key `-1` is
never present. -/
def flmInner (blo bhi i : Nat) (j2len : Nat → Nat) :
    List Nat → (Nat → Nat) → (Nat × Nat × Nat) → (Nat → Nat) × (Nat × Nat × Nat)
  | [], newj2len, best => (newj2len, best)
  | j :: rest, newj2len, best =>
    if j < blo then flmInner blo bhi i j2len rest newj2len best
    else if bhi ≤ j then (newj2len, best)
    else
      let k := (if j = 0 then 0 else j2len (j - 1)) + 1
      let newj2len' := fun x => if x = j then k else newj2len x
      let best' := if best.2.2 < k then (i + 1 - k, j + 1 - k, k) else best
      flmInner blo bhi i j2len rest newj2len' best'

/-- The row loop of `find_longest_match` over `i in range(alo, ahi)`; each
row starts from a fresh empty `newj2len`. -/
def flmRows (a : List Str) (b2j : List (Str × List Nat)) (blo bhi : Nat) :
    List Nat → (Nat → Nat) → (Nat × Nat × Nat) → (Nat × Nat × Nat)
  | [], _, best => best
  | i :: is, j2len, best =>
    let r := flmInner blo bhi i j2len (b2jGet b2j (a.getD i [])) (fun _ => 0) best
    flmRows a b2j blo bhi is r.1 r.2

/-- The left extension loop of `find_longest_match`: with an empty junk set
both left loops reduce to extending over any equal adjacent elements.
`fuel` bounds the recursion (`besti` suffices). -/
def extLeft (a b : List Str) (alo blo : Nat) : Nat → Nat → Nat → Nat
  | 0, _, _ => 0
  | fuel + 1, bi, bj =>
    if decide (alo < bi) && decide (blo < bj) &&
        decide (a.getD (bi - 1) [] = b.getD (bj - 1) []) then
      1 + extLeft a b alo blo fuel (bi - 1) (bj - 1)
    else 0

/-- The right extension loop of `find_longest_match` (empty junk set). -/
def extRight (a b : List Str) (ahi bhi : Nat) : Nat → Nat → Nat → Nat → Nat
  | 0, _, _, _ => 0
  | fuel + 1, bi, bj, sz =>
    if decide (bi + sz < ahi) && decide (bj + sz < bhi) &&
        decide (a.getD (bi + sz) [] = b.getD (bj + sz) []) then
      1 + extRight a b ahi bhi fuel bi bj (sz + 1)
    else 0

/-- `find_longest_match(alo, ahi, blo, bhi)` of `difflib.SequenceMatcher`,
specialised to `isjunk = None` (empty junk set) as `inline_diff` constructs
it: the junk-free dynamic programming scan followed by the two extension
loops (the final junk-only loops are no-ops). -/
def findLongestMatch (a b : List Str) (b2j : List (Str × List Nat))
    (alo ahi blo bhi : Nat) : Nat × Nat × Nat :=
  let best := flmRows a b2j blo bhi (List.range' alo (ahi - alo)) (fun _ => 0) (alo, blo, 0)
  let l := extLeft a b alo blo best.1 best.1 best.2.1
  let bi := best.1 - l
  let bj := best.2.1 - l
  let bs := best.2.2 + l
  (bi, bj, bs + extRight a b ahi bhi ahi bi bj bs)

/-- The work-list loop of `get_matching_blocks`: the top of `stack` is the
end of Python's `queue` list.  Each iteration either discards a range
(`k = 0`) or records a block and pushes sub-ranges of strictly smaller
total `a`-length, so with potential `sum (2*(ahi-alo) + 1)` the number of
iterations is at most `2*len(a) + 1`; the supplied fuel is never
exhausted. -/
def matchingBlocksAux (a b : List Str) (b2j : List (Str × List Nat)) :
    Nat → List (Nat × Nat × Nat × Nat) → List (Nat × Nat × Nat) → List (Nat × Nat × Nat)
  | 0, _, acc => acc
  | _ + 1, [], acc => acc
  | fuel + 1, r :: stack, acc =>
    let (alo, ahi, blo, bhi) := r
    let m := findLongestMatch a b b2j alo ahi blo bhi
    let (i, j, k) := m
    if k = 0 then matchingBlocksAux a b b2j fuel stack acc
    else
      let right := if i + k < ahi && j + k < bhi then [(i + k, ahi, j + k, bhi)] else []
      let left := if alo < i && blo < j then [(alo, i, blo, j)] else []
      matchingBlocksAux a b b2j fuel (right ++ left ++ stack) (acc ++ [m])

/-- Lexicographic order on block triples, as Python sorts tuples. -/
def blockLt (x y : Nat × Nat × Nat) : Bool :=
  decide (x.1 < y.1) || (decide (x.1 = y.1) &&
    (decide (x.2.1 < y.2.1) || (decide (x.2.1 = y.2.1) && decide (x.2.2 < y.2.2))))

/-- Insertion into a sorted block list (stable, as Python `list.sort`). -/
def insBlock (x : Nat × Nat × Nat) : List (Nat × Nat × Nat) → List (Nat × Nat × Nat)
  | [] => [x]
  | y :: ys => if blockLt x y then x :: y :: ys else y :: insBlock x ys

/-- The adjacent-block collapsing pass of `get_matching_blocks`, starting
from the dummy block `(0, 0, 0)`; a current block with size 0 is not
emitted. -/
def mergeAdjacent : List (Nat × Nat × Nat) → (Nat × Nat × Nat) → List (Nat × Nat × Nat)
  | [], cur => if cur.2.2 = 0 then [] else [cur]
  | (i2, j2, k2) :: rest, cur =>
    let (i1, j1, k1) := cur
    if i1 + k1 = i2 && j1 + k1 = j2 then mergeAdjacent rest (i1, j1, k1 + k2)
    else (if k1 = 0 then [] else [(i1, j1, k1)]) ++ mergeAdjacent rest (i2, j2, k2)

/-- `get_matching_blocks()` of `difflib.SequenceMatcher` (with `isjunk =
None`): recursive longest-match decomposition, sorted, adjacent blocks
merged, terminated by the `(len(a), len(b), 0)` sentinel. -/
def getMatchingBlocks (a b : List Str) : List (Nat × Nat × Nat) :=
  let blocks := matchingBlocksAux a b (b2jPurged b) (2 * a.length + 2)
    [(0, a.length, 0, b.length)] []
  mergeAdjacent (blocks.foldr insBlock []) (0, 0, 0) ++ [(a.length, b.length, 0)]

/-- `get_opcodes()` of `difflib.SequenceMatcher`: the gap before each
matching block becomes a `replace`/`delete`/`insert` opcode and each
non-empty block an `equal` opcode. -/
def opcodesAux : List (Nat × Nat × Nat) → Nat → Nat → List (Str × Nat × Nat × Nat × Nat)
  | [], _, _ => []
  | (ai, bj, size) :: rest, i, j =>
    let pre :=
      if i < ai && j < bj then [("replace".data, i, ai, j, bj)]
      else if i < ai then [("delete".data, i, ai, j, bj)]
      else if j < bj then [("insert".data, i, ai, j, bj)]
      else []
    pre ++ (if size = 0 then [] else [("equal".data, ai, ai + size, bj, bj + size)]) ++
      opcodesAux rest (ai + size) (bj + size)

/-- The opcode sequence `inline_diff` iterates over. -/
def getOpcodes (a b : List Str) : List (Str × Nat × Nat × Nat × Nat) :=
  opcodesAux (getMatchingBlocks a b) 0 0

/-- `' '.join(words[lo:hi])`. -/
def sliceJoin (ws : List Str) (lo hi : Nat) : Str := joinSpace ((ws.take hi).drop lo)

/-- `inline_diff(old, new)` from `src/compare.py`: whitespace-tokenise both
texts, walk the SequenceMatcher opcodes emitting equal runs verbatim,
deleted runs in `<del>` and inserted runs in `<ins>` (a replace emits
both), and join all pieces with single spaces. -/
def inline_diff (old new : Str) : Str :=
  let ow := pySplit old
  let nw := pySplit new
  joinSpace ((getOpcodes ow nw).foldl
    (fun out op =>
      let (tag, i1, i2, j1, j2) := op
      if tag = "equal".data then out ++ (ow.take i2).drop i1
      else if tag = "replace".data then
        out ++ ["<del>".data ++ sliceJoin ow i1 i2 ++ "</del>".data,
                "<ins>".data ++ sliceJoin nw j1 j2 ++ "</ins>".data]
      else if tag = "delete".data then
        out ++ ["<del>".data ++ sliceJoin ow i1 i2 ++ "</del>".data]
      else out ++ ["<ins>".data ++ sliceJoin nw j1 j2 ++ "</ins>".data])
    [])

/-- The text-comparison rule as the specification words it: identical
after trimming surrounding whitespace gives (`Unchanged`, 100); otherwise
with token-set similarity score `s`, `s >= 90` gives `Minor edit`,
`65 <= s < 90` gives `Modified` and `s < 65` gives `Substantially
modified`, each with similarity equal to `s`. -/
def statusRuleSpec (old new : Str) : Str × Score :=
  if pyStrip old = pyStrip new then ("Unchanged".data, natScore 100)
  else
    let s := token_set_score old new
    if scoreLe (natScore 90) s then ("Minor edit".data, s)
    else if scoreLe (natScore 65) s then ("Modified".data, s)
    else ("Substantially modified".data, s)

/-- C3.  The `_status` function implements the specification's
text-comparison rule exactly: texts identical after trimming yield
(`Unchanged`, 100), and otherwise the token-set score `s` is classified
`Minor edit` at `s >= 90`, `Modified` at `65 <= s < 90` and
`Substantially modified` at `s < 65`, always with similarity `s` — in
particular scores of exactly 90, 89, 65 and 64 yield `Minor edit`,
`Modified`, `Modified` and `Substantially modified` respectively. -/
theorem act_c3 (old new : Str) : statusAndSim old new = statusRuleSpec old new := rfl

/-- The old and new texts of the specification's worked example, exactly
as the claim states them (a single line each). -/
def c2FlatOld : Str := "Section 5 Penalty (1) A fine of 100 shall apply.".data

/-- New-side single-line example text. -/
def c2FlatNew : Str := "Section 5 Penalty (1) A fine of 500 shall apply.".data

/-- C2, counterexample.  On the example texts exactly as stated (one
line each), the whole line becomes the section heading: the single unit
from each side has an *empty* `subsection_ref` (not `(1)`) and an empty
body, so aligning yields one `exact_key` record with status `Unchanged`
and similarity exactly 100 — not `Minor edit`/`Modified` with similarity
strictly below 100 as claimed. -/
theorem act_c2_counterexample :
    (split_sections c2FlatOld).map SecUnit.subsection_ref = [[]] ∧
    (match_sections (split_sections c2FlatOld) (split_sections c2FlatNew)).map
      (fun r => (r.status, r.similarity, r.match_method)) =
      [("Unchanged".data, natScore 100, "exact_key".data)] := by decide

/-- The example's old text with the heading and the subsection on
separate lines. -/
def c2Old : Str := "Section 5 Penalty\n(1) A fine of 100 shall apply.".data

/-- The example's new text with the heading and the subsection on
separate lines. -/
def c2New : Str := "Section 5 Penalty\n(1) A fine of 500 shall apply.".data

/-- The unit the segmenter produces from `c2Old`. -/
def c2OldUnit : SecUnit :=
  ⟨[], [], "section_5".data, "Section 5 Penalty".data, "(1)".data,
   "A fine of 100 shall apply.".data⟩

/-- The unit the segmenter produces from `c2New`. -/
def c2NewUnit : SecUnit :=
  ⟨[], [], "section_5".data, "Section 5 Penalty".data, "(1)".data,
   "A fine of 500 shall apply.".data⟩

/-- C2, amended.  With the heading and the subsection on separate lines
(`"Section 5 Penalty\n(1) A fine of 100 shall apply."` against the same
text with 500), each side segments into exactly one subsection unit with
`section_ref = section_5` and `subsection_ref = (1)`, and aligning them
yields exactly one record with `match_method = exact_key`, status
`Minor edit` (the token-set score for the 100→500 substitution is
1250/13 ≈ 96.2) and similarity 1250/13, strictly less than 100. -/
theorem act_c2 :
    split_sections c2Old = [c2OldUnit] ∧
    split_sections c2New = [c2NewUnit] ∧
    match_sections (split_sections c2Old) (split_sections c2New) =
      [ _row (some c2OldUnit) (some c2NewUnit) "Minor edit".data ⟨1250, 13⟩ "exact_key".data] ∧
    scoreLtB (⟨1250, 13⟩ : Score) (natScore 100) = true := by decide

/-- C8.  `_status` does not tolerate a missing (`None`) side: it calls
`old.strip()` unconditionally, so Python raises `AttributeError` instead
of treating the missing side as an empty string (which would give
(`Substantially modified`, 0) against `"x"`).  Within `match_sections`
the function is only ever applied with both texts present, so the defect
is never exercised by the repository itself. -/
theorem act_c8 :
    statusOnMissing none (some "x".data) = Except.error "AttributeError".data ∧
    statusOnMissing (some "x".data) none = Except.error "AttributeError".data ∧
    statusAndSim [] "x".data = ("Substantially modified".data, natScore 0) :=
  ⟨rfl, rfl, by decide⟩

/-- C6.  Every unit returned by `split_sections` has a non-empty
`section_ref`: the backfill pass replaces an empty reference by the
heading-derived one, falling back to `"auto_section"`. -/
theorem act_c6 (text : Str) (u : SecUnit) (hu : u ∈ split_sections text) :
    u.section_ref ≠ [] := by
  unfold split_sections at hu
  simp only [List.mem_map] at hu
  obtain ⟨v, -, rfl⟩ := hu
  by_cases h : v.section_ref.isEmpty
  · simp only [h, if_true, pyOrStr]
    by_cases h2 : ( _make_section_ref v.section_heading).isEmpty
    · simp [h2]
    · simpa [h2] using (by simpa [List.isEmpty_iff] using h2)
  · simpa [h] using (by simpa [List.isEmpty_iff] using h)

/-- Witness for C6 at the concrete input `"x"`. -/
theorem act_c6_witness :
    (⟨[], [], "auto_section".data, [], [], "x".data⟩ : SecUnit).section_ref ≠ [] :=
  act_c6 "x".data _ (by decide)

/-- With an empty new map, phase 1 emits exactly one provisional `Removed`
record per old-map entry. -/
theorem phase1_nil (om : List (UKey × SecUnit)) :
    ∀ acc, om.foldl (phase1Step []) acc =
      (acc.1 ++ om.map (fun p =>
        _row (some p.2) none "Removed".data (natScore 0) "unmatched_old".data),
       acc.2) := by
  induction om with
  | nil => intro acc; simp
  | cons p om ih =>
    intro acc
    simp only [List.foldl_cons, List.map_cons]
    rw [ih]
    simp [phase1Step, alookup]

/-- With an empty pool, phase 2 returns every row unchanged. -/
theorem phase2_nilpool (rows : List MatchRow) :
    ∀ acc1, rows.foldl phase2Outer (acc1, []) = (acc1 ++ rows, []) := by
  induction rows with
  | nil => intro acc1; simp
  | cons r rows ih =>
    intro acc1
    simp only [List.foldl_cons]
    have h : phase2Outer (acc1, ([] : List (UKey × SecUnit))) r = (acc1 ++ [r], []) := by
      unfold phase2Outer phase2Step
      split <;> simp
    rw [h, ih]
    simp

/-- C7.  Empty-side behaviour: segmenting the empty string yields no
units, aligning any units against an empty new side yields only `Removed`
records, and aligning an empty old side against any units yields only
`Added` records (all functions are total, so no call can fail). -/
theorem act_c7 :
    split_sections [] = [] ∧
    (∀ (us : List SecUnit) (r : MatchRow), r ∈ match_sections us [] →
      r.status = "Removed".data) ∧
    (∀ (us : List SecUnit) (r : MatchRow), r ∈ match_sections [] us →
      r.status = "Added".data) := by
  refine ⟨by decide, ?_, ?_⟩
  · intro us r hr
    simp only [match_sections] at hr
    rw [show buildMap ([] : List SecUnit) = [] from rfl] at hr
    rw [show phase1 (buildMap us) [] =
        ((buildMap us).map (fun p =>
          _row (some p.2) none "Removed".data (natScore 0) "unmatched_old".data), []) from
      phase1_nil (buildMap us) ([], [])] at hr
    simp only [List.filter_nil, phase2] at hr
    rw [phase2_nilpool] at hr
    simp only [List.nil_append, List.map_nil, List.append_nil, List.mem_map] at hr
    obtain ⟨p, -, rfl⟩ := hr
    rfl
  · intro us r hr
    simp only [match_sections] at hr
    rw [show buildMap ([] : List SecUnit) = [] from rfl] at hr
    rw [show phase1 [] (buildMap us) = (([] : List MatchRow), ([] : List UKey)) from rfl] at hr
    simp only [phase2, List.foldl_nil, List.contains_nil, Bool.not_false, List.filter_true,
      List.nil_append, List.mem_map] at hr
    obtain ⟨p, -, rfl⟩ := hr
    rfl

/-- Witness for C7 at a concrete one-unit side. -/
theorem act_c7_witness :
    ( _row (some ⟨[], [], "r".data, [], [], "b".data⟩) none "Removed".data (natScore 0)
      "unmatched_old".data).status = "Removed".data ∧
    ( _row none (some ⟨[], [], "r".data, [], [], "b".data⟩) "Added".data (natScore 0)
      "new_only".data).status = "Added".data :=
  ⟨act_c7.2.1 [⟨[], [], "r".data, [], [], "b".data⟩] _ (by decide),
   act_c7.2.2 [⟨[], [], "r".data, [], [], "b".data⟩] _ (by decide)⟩

/-- The key list of an association map. -/
def keysOf (m : List (UKey × SecUnit)) : List UKey := m.map Prod.fst

/-- `upsert` replaces in place on a present key and appends a fresh one. -/
theorem upsert_keys (k : UKey) (v : SecUnit) (m : List (UKey × SecUnit)) :
    keysOf (upsert m k v) = if k ∈ keysOf m then keysOf m else keysOf m ++ [k] := by
  induction m with
  | nil =>
    simp only [upsert, keysOf, List.map_cons, List.map_nil, List.not_mem_nil, if_false,
      List.nil_append]
  | cons hd rest ih =>
    obtain ⟨k', v'⟩ := hd
    by_cases h : k' = k
    · subst h
      simp only [upsert, if_pos rfl, keysOf, List.map_cons, List.mem_cons, true_or, if_true]
    · simp only [upsert, if_neg h, keysOf, List.map_cons] at *
      rw [ih]
      by_cases h2 : k ∈ List.map Prod.fst rest
      · simp [h2]
      · simp [h2, Ne.symm h]

/-- `upsert` preserves distinctness of keys. -/
theorem upsert_nodup (k : UKey) (v : SecUnit) (m : List (UKey × SecUnit))
    (h : (keysOf m).Nodup) : (keysOf (upsert m k v)).Nodup := by
  rw [upsert_keys]
  by_cases h2 : k ∈ keysOf m
  · simpa [h2] using h
  · simp only [h2, if_false]
    simpa using List.Nodup.concat h2 h

/-- All keys of `buildMap` are distinct. -/
theorem buildMap_nodup_aux :
    ∀ (us : List SecUnit) (m : List (UKey × SecUnit)), (keysOf m).Nodup →
      (keysOf (us.foldl (fun m u => upsert m (unitKey u) u) m)).Nodup
  | [], _, h => h
  | u :: us, m, h =>
    buildMap_nodup_aux us (upsert m (unitKey u) u) (upsert_nodup _ _ m h)

/-- All keys of `buildMap` are distinct. -/
theorem buildMap_nodup (us : List SecUnit) : (keysOf (buildMap us)).Nodup :=
  buildMap_nodup_aux us [] (by simp [keysOf])

/-- Looking up the key of an entry of a map with distinct keys yields that
entry's value. -/
theorem alookup_mem :
    ∀ m : List (UKey × SecUnit), (keysOf m).Nodup →
      ∀ p : UKey × SecUnit, p ∈ m → alookup m p.1 = some p.2
  | [], _, p, hp => by cases hp
  | (k', v') :: rest, h, p, hp => by
    rcases List.mem_cons.mp hp with h1 | h1
    · subst h1
      simp [alookup]
    · have hk : k' ≠ p.1 := by
        intro he
        have : p.1 ∈ keysOf rest := List.mem_map_of_mem Prod.fst h1
        rw [← he] at this
        exact (List.nodup_cons.mp h).1 this
      have := alookup_mem rest (List.nodup_cons.mp h).2 p h1
      simpa [alookup, hk] using this

/-- Comparing a text with itself is always (`Unchanged`, 100). -/
theorem statusAndSim_self (t : Str) : statusAndSim t t = ("Unchanged".data, natScore 100) := by
  simp [statusAndSim]

/-- When every folded entry finds itself on the new side, phase 1 emits one
(`Unchanged`, 100, `exact_key`) record per entry and consumes its key. -/
theorem phase1_all_found (nm : List (UKey × SecUnit)) :
    ∀ l : List (UKey × SecUnit), (∀ p ∈ l, alookup nm p.1 = some p.2) →
      ∀ acc, l.foldl (phase1Step nm) acc =
        (acc.1 ++ l.map (fun p =>
          _row (some p.2) (some p.2) "Unchanged".data (natScore 100) "exact_key".data),
         acc.2 ++ keysOf l)
  | [], _, acc => by simp [keysOf]
  | p :: l, hl, acc => by
    simp only [List.foldl_cons, List.map_cons]
    have h1 : alookup nm p.1 = some p.2 := hl p (List.mem_cons_self p l)
    rw [show phase1Step nm acc p =
        (acc.1 ++ [ _row (some p.2) (some p.2) "Unchanged".data (natScore 100)
          "exact_key".data], acc.2 ++ [p.1]) from by
      simp [phase1Step, h1, statusAndSim_self]]
    rw [phase1_all_found nm l (fun q hq => hl q (List.mem_cons_of_mem p hq))]
    simp [keysOf]

/-- Filtering a map against its own key list leaves nothing. -/
theorem filter_consumed (m : List (UKey × SecUnit)) :
    m.filter (fun p => !(keysOf m).contains p.1) = [] := by
  rw [List.filter_eq_nil_iff]
  intro p hp
  have : p.1 ∈ keysOf m := List.mem_map_of_mem Prod.fst hp
  simp [this]

/-- Self-comparison: `match_sections us us` is exactly one (`Unchanged`,
100, `exact_key`) record per distinct composite key (the key maps built
from the two equal sides coincide, every key matches, phase 2 sees an
empty pool and phase 3 adds nothing). -/
theorem match_sections_self (us : List SecUnit) :
    match_sections us us = (buildMap us).map (fun p =>
      _row (some p.2) (some p.2) "Unchanged".data (natScore 100) "exact_key".data) := by
  simp only [match_sections, phase1]
  rw [phase1_all_found (buildMap us) (buildMap us)
    (fun p hp => alookup_mem (buildMap us) (buildMap_nodup us) p hp) ([], [])]
  simp only [List.nil_append, filter_consumed, phase2]
  rw [phase2_nilpool]
  simp

/-- The size of `buildMap` is the number of distinct composite keys. -/
theorem buildMap_card_aux :
    ∀ (us : List SecUnit) (m : List (UKey × SecUnit)), (keysOf m).Nodup →
      (us.foldl (fun m u => upsert m (unitKey u) u) m).length =
        (keysOf m ++ us.map unitKey).toFinset.card
  | [], m, h => by
    simp only [List.foldl_nil, List.map_nil, List.append_nil]
    rw [List.toFinset_card_of_nodup h]
    simp [keysOf]
  | u :: us, m, h => by
    simp only [List.foldl_cons, List.map_cons]
    rw [buildMap_card_aux us (upsert m (unitKey u) u) (upsert_nodup _ _ m h)]
    congr 1
    rw [upsert_keys]
    by_cases h2 : unitKey u ∈ keysOf m
    · simp only [h2, if_true]
      apply Finset.ext
      intro a
      simp only [List.mem_toFinset, List.mem_append, List.mem_cons]
      constructor
      · rintro (ha | ha)
        · exact Or.inl ha
        · exact Or.inr (Or.inr ha)
      · rintro (ha | ha | ha)
        · exact Or.inl ha
        · exact Or.inl (ha ▸ h2)
        · exact Or.inr ha
    · simp only [h2, if_false, List.append_assoc, List.singleton_append]

/-- The size of `buildMap` is the number of distinct composite keys. -/
theorem buildMap_card (us : List SecUnit) :
    (buildMap us).length = ((us.map unitKey).dedup).length := by
  rw [buildMap, buildMap_card_aux us [] (by simp [keysOf])]
  rw [show keysOf [] ++ us.map unitKey = us.map unitKey from by simp [keysOf]]
  exact List.card_toFinset _

/-- The text used to refute the claimed record count: two sections with the
same heading produce two units sharing one composite key. -/
def c1Text : Str := "Section 1 A\nbody\nSection 1 A\nbody two".data

/-- C1, counterexample.  Segmenting `c1Text` yields two units, but they
share their composite key, so the key map collapses them and the
self-comparison produces a single record: the claimed equality between the
record count and the unit count fails. -/
theorem act_c1_counterexample :
    (match_sections (split_sections c1Text) (split_sections c1Text)).length = 1 ∧
    (split_sections c1Text).length = 2 := by decide

/-- C1, amended.  Self-comparison produces only records with status
`Unchanged`, similarity 100 and method `exact_key`, and the number of
records equals the number of *distinct* composite keys among the units of
`split_sections(T)` (which is the number of units whenever keys are
unique; duplicate keys are collapsed by the key maps). -/
theorem act_c1 (T : Str) :
    (∀ r ∈ match_sections (split_sections T) (split_sections T),
      r.status = "Unchanged".data ∧ r.similarity = natScore 100 ∧
        r.match_method = "exact_key".data) ∧
    (match_sections (split_sections T) (split_sections T)).length =
      (((split_sections T).map unitKey).dedup).length := by
  constructor
  · intro r hr
    rw [match_sections_self] at hr
    simp only [List.mem_map] at hr
    obtain ⟨p, -, rfl⟩ := hr
    exact ⟨rfl, rfl, rfl⟩
  · rw [match_sections_self, List.length_map, buildMap_card]

/-- Witness for C1 at the concrete input `"x"`. -/
theorem act_c1_witness :
    ( _row (some (⟨[], [], "auto_section".data, [], [], "x".data⟩ : SecUnit))
      (some ⟨[], [], "auto_section".data, [], [], "x".data⟩) "Unchanged".data (natScore 100)
      "exact_key".data).status = "Unchanged".data ∧
    ( _row (some (⟨[], [], "auto_section".data, [], [], "x".data⟩ : SecUnit))
      (some ⟨[], [], "auto_section".data, [], [], "x".data⟩) "Unchanged".data (natScore 100)
      "exact_key".data).similarity = natScore 100 ∧
    ( _row (some (⟨[], [], "auto_section".data, [], [], "x".data⟩ : SecUnit))
      (some ⟨[], [], "auto_section".data, [], [], "x".data⟩) "Unchanged".data (natScore 100)
      "exact_key".data).match_method = "exact_key".data :=
  (act_c1 "x".data).1 _ (by decide)

/-- A marker text that is all digits (the claim's `(<digits>)` pattern). -/
def isDigitsMarker (g : Str) : Bool := !g.isEmpty && g.all Char.isDigit

/-- A marker text that is a single lowercase letter. -/
def isSingleLowerMarker (g : Str) : Bool :=
  match g with
  | [c] => c.isLower
  | _ => false

/-- A marker text that is a roman numeral over {i, v, x} in either case —
the amended form of the claim's `(<lowercase-roman-numeral>)` pattern
(the source compiles `PAT_SUBSEC_ROMAN` with `re.I`). -/
def isRomanMarker (g : Str) : Bool := !g.isEmpty && g.all isIvx

/-- A marker text that is a lowercase roman numeral, exactly as the claim
words it. -/
def isLowerRomanMarker (g : Str) : Bool :=
  !g.isEmpty && g.all (fun c => c == 'i' || c == 'v' || c == 'x')

/-- `takeWhile` only keeps elements satisfying the predicate. -/
theorem takeWhile_all (p : Char → Bool) :
    ∀ l : Str, (List.takeWhile p l).all p = true
  | [] => rfl
  | c :: cs => by
    simp only [List.takeWhile_cons]
    by_cases h : p c
    · simp [h, takeWhile_all p cs]
    · simp [h]

/-- A successful numeric subsection marker has an all-digits group. -/
theorem subsecNum_shape (ln g rest : Str) (h : subsecNum ln = some (g, rest)) :
    isDigitsMarker g = true := by
  simp only [subsecNum] at h
  split at h
  · split at h
    · cases h
    · split at h
      · split at h
        · split at h
          · obtain ⟨h1, -⟩ := Prod.mk.injEq .. ▸ Option.some.injEq .. ▸ h
            subst h1
            simp only [isDigitsMarker, takeWhile_all, Bool.and_true]
            simp_all
          · cases h
        · cases h
      · cases h
  · cases h

/-- A successful alphabetic subsection marker is a single lowercase
letter. -/
theorem subsecAlpha_shape (ln g rest : Str) (h : subsecAlpha ln = some (g, rest)) :
    isSingleLowerMarker g = true := by
  simp only [subsecAlpha] at h
  split at h
  · split at h
    · split at h
      · split at h
        · split at h
          · split at h
            · obtain ⟨h1, -⟩ := Prod.mk.injEq .. ▸ Option.some.injEq .. ▸ h
              subst h1
              simp only [isSingleLowerMarker]
              simp_all
            · cases h
          · cases h
        · cases h
      · cases h
    · cases h
  · cases h

/-- A successful roman subsection marker is a non-empty `[ivxIVX]` text. -/
theorem subsecRoman_shape (ln g rest : Str) (h : subsecRoman ln = some (g, rest)) :
    isRomanMarker g = true := by
  simp only [subsecRoman] at h
  split at h
  · split at h
    · cases h
    · split at h
      · split at h
        · split at h
          · obtain ⟨h1, -⟩ := Prod.mk.injEq .. ▸ Option.some.injEq .. ▸ h
            subst h1
            simp only [isRomanMarker, takeWhile_all, Bool.and_true]
            simp_all
          · cases h
        · cases h
      · cases h
  · cases h

/-- Every successful subsection marker is a bracketed text that is all
digits, a single lowercase letter, or a roman numeral in either case. -/
theorem subsecMarker_shape (ln ref rest : Str)
    (h : subsecMarker ln = some (ref, rest)) :
    ∃ g, ref = '(' :: g ++ [')'] ∧
      (isDigitsMarker g || isSingleLowerMarker g || isRomanMarker g) = true := by
  unfold subsecMarker at h
  cases h1 : subsecNum ln with
  | some p =>
    rw [h1] at h
    obtain ⟨hr, -⟩ := Prod.mk.injEq .. ▸ Option.some.injEq .. ▸ h
    exact ⟨p.1, hr.symm, by simp [subsecNum_shape ln p.1 p.2 h1]⟩
  | none =>
    rw [h1] at h
    cases h2 : subsecAlpha ln with
    | some p =>
      rw [h2] at h
      obtain ⟨hr, -⟩ := Prod.mk.injEq .. ▸ Option.some.injEq .. ▸ h
      exact ⟨p.1, hr.symm, by simp [subsecAlpha_shape ln p.1 p.2 h2]⟩
    | none =>
      rw [h2] at h
      cases h3 : subsecRoman ln with
      | some p =>
        rw [h3] at h
        obtain ⟨hr, -⟩ := Prod.mk.injEq .. ▸ Option.some.injEq .. ▸ h
        exact ⟨p.1, hr.symm, by simp [subsecRoman_shape ln p.1 p.2 h3]⟩
      | none => rw [h3] at h; cases h

/-- Provenance invariant for `_split_subsections`: every emitted pair with
a non-empty reference comes from a marker line among `ls` and its text is
the stripped newline-join of that line's remainder and the lines
accumulated after it; any pending non-`none` reference likewise has a
buffer beginning with its marker line's remainder. -/
def SubsecFromMarker (ls : List Str) (st : SubsecState) : Prop :=
  (∀ p ∈ st.out, p.1 ≠ [] → ∃ ln ∈ ls, ∃ rest tail,
    subsecMarker ln = some (p.1, rest) ∧ p.2 = pyStrip (joinNl (rest :: tail))) ∧
  (∀ r, st.ref = some r → ∃ ln ∈ ls, ∃ rest tail,
    subsecMarker ln = some (r, rest) ∧ st.buf = rest :: tail)

/-- The inner flush preserves the provenance invariant. -/
theorem subsecFlush_from_marker (ls : List Str) (st : SubsecState)
    (h : SubsecFromMarker ls st) : SubsecFromMarker ls (subsecFlush st) := by
  unfold subsecFlush
  by_cases hb : st.buf.isEmpty
  · simpa [hb] using h
  · simp only [hb, Bool.false_eq_true, if_false]
    refine ⟨?_, by simp⟩
    intro p hp hne
    simp only [List.mem_append, List.mem_singleton] at hp
    rcases hp with hp | hp
    · exact h.1 p hp hne
    · subst hp
      rcases hrf : st.ref with - | r
      · simp only [hrf, Option.getD_none] at hne
        exact absurd rfl hne
      · obtain ⟨ln, hln, rest, tail, hm, hbuf⟩ := h.2 r hrf
        refine ⟨ln, hln, rest, tail, ?_, ?_⟩
        · simpa [hrf] using hm
        · simp [hbuf]

/-- One step of the line fold preserves the provenance invariant, provided
the line belongs to `ls`. -/
theorem subsecStep_from_marker (ls : List Str) (st : SubsecState) (ln : Str)
    (hln : ln ∈ ls) (h : SubsecFromMarker ls st) :
    SubsecFromMarker ls (subsecStep st ln) := by
  unfold subsecStep
  cases hm : subsecMarker ln with
  | some p =>
    obtain ⟨ref, rest⟩ := p
    have hf := subsecFlush_from_marker ls st h
    refine ⟨hf.1, ?_⟩
    intro r hr
    simp only [Option.some.injEq] at hr
    exact ⟨ln, hln, rest, [], hr ▸ hm, rfl⟩
  | none =>
    refine ⟨h.1, ?_⟩
    intro r hr
    obtain ⟨ln', hln', rest, tail, hm', hbuf⟩ := h.2 r hr
    exact ⟨ln', hln', rest, tail ++ [ln], hm', by simp [hbuf]⟩

/-- The whole fold preserves the provenance invariant. -/
theorem subsecFold_from_marker (ls : List Str) :
    ∀ (lines : List Str) (st : SubsecState), (∀ ln ∈ lines, ln ∈ ls) →
      SubsecFromMarker ls st → SubsecFromMarker ls (lines.foldl subsecStep st)
  | [], _, _, h => h
  | ln :: lines, st, hsub, h =>
    subsecFold_from_marker ls lines (subsecStep st ln)
      (fun x hx => hsub x (List.mem_cons_of_mem ln hx))
      (subsecStep_from_marker ls st ln (hsub ln (List.mem_cons_self ln lines)) h)

/-- C5, amended.  Subsection splitting: a new subsection begins only at a
line bearing a parenthesized marker that is digits, a single lowercase
letter, or a roman numeral *in either case* (the roman pattern carries
`re.I`), the three patterns checked in that priority order with the first
match winning; the resulting `subsection_ref` is the bracketed marker text
and the subsection's body begins with the remainder of the marker line.
Formally: every marker the classifier produces is a bracketed digits /
single-lowercase-letter / either-case-roman text, and every subsection
that `_split_subsections` emits with a non-empty reference originates
from a line of the body on which the marker classifier fires, its text
being the stripped newline-join of that line's remainder and the lines
accumulated after it. -/
theorem act_c5 :
    (∀ ln ref rest : Str, subsecMarker ln = some (ref, rest) →
      ∃ g, ref = '(' :: g ++ [')'] ∧
        (isDigitsMarker g || isSingleLowerMarker g || isRomanMarker g) = true) ∧
    (∀ (body : Str) (p : Str × Str), p ∈ _split_subsections body → p.1 ≠ [] →
      ∃ ln ∈ pySplitlines body, ∃ rest tail,
        subsecMarker ln = some (p.1, rest) ∧
        p.2 = pyStrip (joinNl (rest :: tail))) := by
  refine ⟨subsecMarker_shape, ?_⟩
  intro body p hp hne
  have hinv : SubsecFromMarker (pySplitlines body)
      ((pySplitlines body).foldl subsecStep ⟨[], none, []⟩) :=
    subsecFold_from_marker (pySplitlines body) (pySplitlines body) ⟨[], none, []⟩
      (fun _ hx => hx) (by constructor <;> simp)
  have hfl := subsecFlush_from_marker (pySplitlines body) _ hinv
  unfold _split_subsections at hp
  exact hfl.1 p (List.mem_of_mem_filter hp) hne

/-- Witness for C5 at the line `"(2) x"` and the body `"(iv) y"`. -/
theorem act_c5_witness :
    (∃ g, "(2)".data = '(' :: g ++ [')'] ∧
      (isDigitsMarker g || isSingleLowerMarker g || isRomanMarker g) = true) ∧
    (∃ ln ∈ pySplitlines "(iv) y".data, ∃ rest tail,
      subsecMarker ln = some ("(iv)".data, rest) ∧
      "y".data = pyStrip (joinNl (rest :: tail))) :=
  ⟨act_c5.1 "(2) x".data "(2)".data "x".data (by decide),
   act_c5.2 "(iv) y".data ("(iv)".data, "y".data) (by decide) (by decide)⟩

/-- C5, counterexample.  The line `"(I) hello"` starts with a marker that
is neither digits, nor a single lowercase letter, nor a *lowercase* roman
numeral, yet `_split_subsections` starts a new subsection on it with
`subsection_ref = "(I)"` — the roman pattern is compiled with `re.I`, so
the claim's "lowercase roman numeral" excludes lines the code accepts. -/
theorem act_c5_counterexample :
    _split_subsections "(I) hello".data = [("(I)".data, "hello".data)] ∧
    (isDigitsMarker "I".data || isSingleLowerMarker "I".data ||
      isLowerRomanMarker "I".data) = false := by decide

/-- The four text-comparison statuses. -/
def fourStatuses : List Str :=
  ["Unchanged".data, "Minor edit".data, "Modified".data, "Substantially modified".data]

/-- `_status` only ever returns one of the four text statuses. -/
theorem statusAndSim_mem (a b : Str) : (statusAndSim a b).1 ∈ fourStatuses := by
  unfold statusAndSim fourStatuses
  by_cases h1 : pyStrip a = pyStrip b
  · simp [h1]
  · by_cases h2 : scoreLe (natScore 90) (token_set_score a b) <;>
      by_cases h3 : scoreLe (natScore 65) (token_set_score a b) <;>
      simp [h1, h2, h3]

/-- None of the four text statuses is `Removed` or `Added`. -/
theorem fourStatuses_ne :
    ∀ s ∈ fourStatuses, s ≠ "Removed".data ∧ s ≠ "Added".data := by decide

/-- The row invariant of C10, strengthened with old-side presence on
`Removed` rows (needed to carry the invariant through phase-2 upgrades). -/
def RowInv (r : MatchRow) : Prop :=
  (r.status = "Removed".data ↔ r.match_method = "unmatched_old".data) ∧
  (r.status = "Added".data ↔ r.match_method = "new_only".data) ∧
  ((r.match_method = "exact_key".data ∨ r.match_method = "fuzzy_heading".data) →
    r.status ∈ fourStatuses ∧ r.old_text ≠ none ∧ r.new_text ≠ none) ∧
  (r.status = "Removed".data → r.old_text ≠ none)

/-- Phase-1 rows satisfy the row invariant. -/
theorem phase1_inv (nm om : List (UKey × SecUnit)) :
    ∀ acc : List MatchRow × List UKey,
      (∀ r ∈ acc.1, RowInv r) → ∀ r ∈ (om.foldl (phase1Step nm) acc).1, RowInv r := by
  induction om with
  | nil => exact fun acc hacc => hacc
  | cons p om ih =>
    intro acc hacc
    refine ih (phase1Step nm acc p) ?_
    intro r hr
    unfold phase1Step at hr
    rcases hl : alookup nm p.1 with - | nu <;> rw [hl] at hr <;>
      simp only [List.mem_append, List.mem_singleton] at hr <;>
      rcases hr with hr | hr
    · exact hacc r hr
    · subst hr
      refine ⟨by simp [ _row], by simp [ _row], by simp [ _row], by simp [ _row]⟩
    · exact hacc r hr
    · subst hr
      have hm := statusAndSim_mem p.2.text nu.text
      have hne := fourStatuses_ne _ hm
      refine ⟨?_, ?_, ?_, ?_⟩
      · simp only [ _row]
        constructor
        · intro hst; exact absurd hst hne.1
        · intro hmm; exact absurd hmm (by decide)
      · simp only [ _row]
        constructor
        · intro hst; exact absurd hst hne.2
        · intro hmm; exact absurd hmm (by decide)
      · intro _
        exact ⟨hm, by simp [ _row], by simp [ _row]⟩
      · intro hst
        exact absurd hst hne.1

/-- A phase-2 step either leaves the record alone or upgrades it from some
candidate unit with recomputed status. -/
theorem phase2Step_cases (pool : List (UKey × SecUnit)) (r : MatchRow) :
    (phase2Step pool r).1 = r ∨
    ∃ nu : SecUnit, (phase2Step pool r).1 =
      _row_updates_from_new r nu (statusAndSim (r.old_text.getD []) nu.text).1
        (statusAndSim (r.old_text.getD []) nu.text).2 "fuzzy_heading".data := by
  simp only [phase2Step]
  repeat' split
  all_goals first
    | exact Or.inl rfl
    | exact Or.inr ⟨_, rfl⟩

/-- Upgrading a `Removed` row with old text present preserves the row
invariant. -/
theorem row_updates_inv (r : MatchRow) (nu : SecUnit) (hold : r.old_text ≠ none) :
    RowInv ( _row_updates_from_new r nu (statusAndSim (r.old_text.getD []) nu.text).1
      (statusAndSim (r.old_text.getD []) nu.text).2 "fuzzy_heading".data) := by
  have hm := statusAndSim_mem (r.old_text.getD []) nu.text
  have hne := fourStatuses_ne _ hm
  have hst : (if (statusAndSim (r.old_text.getD []) nu.text).1 = "Removed".data
      then "Modified".data else (statusAndSim (r.old_text.getD []) nu.text).1) =
      (statusAndSim (r.old_text.getD []) nu.text).1 := by
    rw [if_neg hne.1]
  refine ⟨?_, ?_, ?_, ?_⟩
  · simp only [ _row_updates_from_new, hst]
    constructor
    · intro h; exact absurd h hne.1
    · intro h; exact absurd h (by decide)
  · simp only [ _row_updates_from_new, hst]
    constructor
    · intro h; exact absurd h hne.2
    · intro h; exact absurd h (by decide)
  · intro _
    simp only [ _row_updates_from_new, hst]
    exact ⟨hm, hold, by simp⟩
  · simp only [ _row_updates_from_new, hst]
    intro h
    exact absurd h hne.1

/-- Phase 2 preserves the row invariant. -/
theorem phase2_inv (rows : List MatchRow) :
    ∀ (acc : List MatchRow × List (UKey × SecUnit)), (∀ r ∈ acc.1, RowInv r) →
      (∀ r ∈ rows, RowInv r) → ∀ r ∈ (rows.foldl phase2Outer acc).1, RowInv r := by
  induction rows with
  | nil => exact fun acc hacc _ => hacc
  | cons q rows ih =>
    intro acc hacc hrows
    refine ih (phase2Outer acc q) ?_ (fun r hr => hrows r (List.mem_cons_of_mem q hr))
    intro r hr
    have hq : RowInv q := hrows q (List.mem_cons_self q rows)
    unfold phase2Outer at hr
    split at hr <;> simp only [List.mem_append, List.mem_singleton] at hr <;>
      rcases hr with hr | hr
    · exact hacc r hr
    · subst hr
      rcases phase2Step_cases acc.2 q with hc | ⟨nu, hc⟩
      · rw [hc]; exact hq
      · rw [hc]
        refine row_updates_inv q nu (hq.2.2.2 ?_)
        rename_i hqrem
        exact hqrem
    · exact hacc r hr
    · subst hr; exact hq

/-- C10.  In every record `match_sections` returns, status `Removed`
coincides exactly with method `unmatched_old` and status `Added` with
method `new_only`; every `exact_key` or `fuzzy_heading` record carries one
of the four text statuses and has both text sides present. -/
theorem act_c10 (old_units new_units : List SecUnit) (r : MatchRow)
    (hr : r ∈ match_sections old_units new_units) :
    (r.status = "Removed".data ↔ r.match_method = "unmatched_old".data) ∧
    (r.status = "Added".data ↔ r.match_method = "new_only".data) ∧
    ((r.match_method = "exact_key".data ∨ r.match_method = "fuzzy_heading".data) →
      r.status ∈ fourStatuses ∧ r.old_text ≠ none ∧ r.new_text ≠ none) := by
  have : RowInv r := by
    simp only [match_sections] at hr
    rcases List.mem_append.mp hr with h | h
    · refine phase2_inv _ _ (by simp) ?_ r h
      exact fun q hq => phase1_inv _ _ ([], []) (by simp) q hq
    · simp only [List.mem_map] at h
      obtain ⟨p, -, rfl⟩ := h
      exact ⟨by simp [ _row], by simp [ _row], by simp [ _row], by simp [ _row]⟩
  exact ⟨this.1, this.2.1, this.2.2.1⟩

/-- Witness for C10 on a concrete one-record comparison. -/
theorem act_c10_witness :
    (( _row (some (⟨[], [], "r".data, [], [], "b".data⟩ : SecUnit))
        (some ⟨[], [], "r".data, [], [], "b".data⟩) "Unchanged".data (natScore 100)
        "exact_key".data).status = "Removed".data ↔
      ( _row (some (⟨[], [], "r".data, [], [], "b".data⟩ : SecUnit))
        (some ⟨[], [], "r".data, [], [], "b".data⟩) "Unchanged".data (natScore 100)
        "exact_key".data).match_method = "unmatched_old".data) ∧
    (( _row (some (⟨[], [], "r".data, [], [], "b".data⟩ : SecUnit))
        (some ⟨[], [], "r".data, [], [], "b".data⟩) "Unchanged".data (natScore 100)
        "exact_key".data).status = "Added".data ↔
      ( _row (some (⟨[], [], "r".data, [], [], "b".data⟩ : SecUnit))
        (some ⟨[], [], "r".data, [], [], "b".data⟩) "Unchanged".data (natScore 100)
        "exact_key".data).match_method = "new_only".data) ∧
    ((( _row (some (⟨[], [], "r".data, [], [], "b".data⟩ : SecUnit))
        (some ⟨[], [], "r".data, [], [], "b".data⟩) "Unchanged".data (natScore 100)
        "exact_key".data).match_method = "exact_key".data ∨
      ( _row (some (⟨[], [], "r".data, [], [], "b".data⟩ : SecUnit))
        (some ⟨[], [], "r".data, [], [], "b".data⟩) "Unchanged".data (natScore 100)
        "exact_key".data).match_method = "fuzzy_heading".data) →
      ( _row (some (⟨[], [], "r".data, [], [], "b".data⟩ : SecUnit))
        (some ⟨[], [], "r".data, [], [], "b".data⟩) "Unchanged".data (natScore 100)
        "exact_key".data).status ∈ fourStatuses ∧
      ( _row (some (⟨[], [], "r".data, [], [], "b".data⟩ : SecUnit))
        (some ⟨[], [], "r".data, [], [], "b".data⟩) "Unchanged".data (natScore 100)
        "exact_key".data).old_text ≠ none ∧
      ( _row (some (⟨[], [], "r".data, [], [], "b".data⟩ : SecUnit))
        (some ⟨[], [], "r".data, [], [], "b".data⟩) "Unchanged".data (natScore 100)
        "exact_key".data).new_text ≠ none) :=
  act_c10 [⟨[], [], "r".data, [], [], "b".data⟩] [⟨[], [], "r".data, [], [], "b".data⟩] _
    (by decide)

/-- `mkScore` always has a positive denominator. -/
theorem mkScore_den_pos (n d : Nat) : 0 < (mkScore n d).den := by
  unfold mkScore
  split
  · exact Nat.one_pos
  · rename_i hd
    have hg : Nat.gcd n d ≠ 0 := fun h => hd (Nat.eq_zero_of_gcd_eq_zero_right h)
    exact Nat.div_pos (Nat.le_of_dvd (Nat.pos_of_ne_zero hd) (Nat.gcd_dvd_right n d))
      (Nat.pos_of_ne_zero hg)

/-- `scoreMax` returns one of its arguments. -/
theorem scoreMax_cases (a b : Score) : scoreMax a b = a ∨ scoreMax a b = b := by
  unfold scoreMax
  split
  · exact Or.inr rfl
  · exact Or.inl rfl

/-- Every token-set score has a positive denominator. -/
theorem token_set_score_den_pos (a b : Str) : 0 < (token_set_score a b).den := by
  have hns : ∀ d t, 0 < (normSim d t).den := fun d t => mkScore_den_pos _ _
  have hmax : ∀ x y : Score, 0 < x.den → 0 < y.den → 0 < (scoreMax x y).den := by
    intro x y hx hy
    rcases scoreMax_cases x y with h | h <;> rw [h] <;> assumption
  simp only [token_set_score]
  split
  · exact Nat.one_pos
  · split
    · exact Nat.one_pos
    · split
      · exact hns _ _
      · exact hmax _ _ (hns _ _) (hmax _ _ (hns _ _) (hns _ _))

/-- Transitivity of the cross-multiplied score order through a score with
positive denominator. -/
theorem scoreLe_trans (a b c : Score) (hb : 0 < b.den)
    (h1 : scoreLe a b = true) (h2 : scoreLe b c = true) : scoreLe a c = true := by
  simp only [scoreLe, decide_eq_true_eq] at *
  have h1' : a.num * b.den * c.den ≤ b.num * a.den * c.den :=
    Nat.mul_le_mul_right c.den h1
  have h2' : b.num * c.den * a.den ≤ c.num * b.den * a.den :=
    Nat.mul_le_mul_right a.den h2
  have hchain : a.num * c.den * b.den ≤ c.num * a.den * b.den := by
    calc a.num * c.den * b.den = a.num * b.den * c.den := by ring
    _ ≤ b.num * a.den * c.den := h1'
    _ = b.num * c.den * a.den := by ring
    _ ≤ c.num * b.den * a.den := h2'
    _ = c.num * a.den * b.den := by ring
  exact Nat.le_of_mul_le_mul_right hchain hb

/-- A failed strict comparison is the reverse weak comparison. -/
theorem scoreLe_of_not_lt (a b : Score) (h : scoreLtB a b = false) :
    scoreLe b a = true := by
  simp only [scoreLtB, decide_eq_false_iff_not, Nat.not_lt] at h
  simpa [scoreLe] using h

/-- A successful strict comparison weakens. -/
theorem scoreLe_of_lt (a b : Score) (h : scoreLtB a b = true) : scoreLe a b = true := by
  simp only [scoreLtB, decide_eq_true_eq] at h
  simp only [scoreLe, decide_eq_true_eq]
  exact Nat.le_of_lt h

/-- The score order is reflexive. -/
theorem scoreLe_refl (a : Score) : scoreLe a a = true := by
  simp [scoreLe]

/-- The best-candidate fold starting from a current best returns a
candidate achieving the maximum score over the current best and the rest
of the list. -/
theorem bestCand_go (q : Str) :
    ∀ (cands : List (UKey × SecUnit)) (bc : UKey × SecUnit) (bsc : Score),
      token_set_score q (candText bc.2) = bsc →
      ∃ bp bs, cands.foldl (bestStep q) (some (bc, bsc)) = some (bp, bs) ∧
        (bp = bc ∨ bp ∈ cands) ∧ token_set_score q (candText bp.2) = bs ∧
        scoreLe bsc bs = true ∧
        ∀ p ∈ cands, scoreLe (token_set_score q (candText p.2)) bs = true := by
  intro cands
  induction cands with
  | nil =>
    intro bc bsc hb
    exact ⟨bc, bsc, rfl, Or.inl rfl, hb, scoreLe_refl _, by simp⟩
  | cons p rest ih =>
    intro bc bsc hb
    simp only [List.foldl_cons]
    by_cases hlt : scoreLtB bsc (token_set_score q (candText p.2)) = true
    · rw [show bestStep q (some (bc, bsc)) p =
          some (p, token_set_score q (candText p.2)) from by simp [bestStep, hlt]]
      obtain ⟨bp, bs, heq, hmem, hsc, hle, hall⟩ :=
        ih p (token_set_score q (candText p.2)) rfl
      refine ⟨bp, bs, heq, ?_, hsc, ?_, ?_⟩
      · rcases hmem with h | h
        · exact Or.inr (h ▸ List.mem_cons_self p rest)
        · exact Or.inr (List.mem_cons_of_mem p h)
      · exact scoreLe_trans bsc (token_set_score q (candText p.2)) bs
          (token_set_score_den_pos q (candText p.2)) (scoreLe_of_lt _ _ hlt) hle
      · intro x hx
        rcases List.mem_cons.mp hx with h | h
        · subst h; exact hle
        · exact hall x h
    · rw [show bestStep q (some (bc, bsc)) p = some (bc, bsc) from by
        simp only [bestStep]
        rw [if_neg hlt]]
      obtain ⟨bp, bs, heq, hmem, hsc, hle, hall⟩ := ih bc bsc hb
      refine ⟨bp, bs, heq, ?_, hsc, hle, ?_⟩
      · rcases hmem with h | h
        · exact Or.inl h
        · exact Or.inr (List.mem_cons_of_mem p h)
      intro x hx
      rcases List.mem_cons.mp hx with h | h
      · subst h
        refine scoreLe_trans _ bsc bs ?_
          (scoreLe_of_not_lt bsc _ (Bool.eq_false_iff.mpr hlt)) hle
        rw [← hb]
        exact token_set_score_den_pos q (candText bc.2)
      · exact hall x h

/-- `bestCand` on a non-empty candidate list returns a candidate from the
list achieving the maximum score. -/
theorem bestCand_spec (q : Str) (cands : List (UKey × SecUnit)) (h : cands ≠ []) :
    ∃ bp bs, bestCand q cands = some (bp, bs) ∧ bp ∈ cands ∧
      token_set_score q (candText bp.2) = bs ∧
      ∀ p ∈ cands, scoreLe (token_set_score q (candText p.2)) bs = true := by
  rcases cands with - | ⟨p, rest⟩
  · exact absurd rfl h
  · unfold bestCand
    simp only [List.foldl_cons]
    rw [show bestStep q none p = some (p, token_set_score q (candText p.2)) from rfl]
    obtain ⟨bp, bs, heq, hmem, hsc, hle, hall⟩ :=
      bestCand_go q rest p (token_set_score q (candText p.2)) rfl
    refine ⟨bp, bs, heq, ?_, hsc, ?_⟩
    · rcases hmem with h | h
      · exact h ▸ List.mem_cons_self p rest
      · exact List.mem_cons_of_mem p h
    · intro x hx
      rcases List.mem_cons.mp hx with h | h
      · subst h; exact hle
      · exact hall x h

/-- The claim's candidate pool for one provisionally-`Removed` record: the
unconsumed new units sharing the old unit's `section_ref` when any exist,
otherwise all unconsumed new units. -/
def phase2Cands (r : MatchRow) (pool : List (UKey × SecUnit)) : List (UKey × SecUnit) :=
  let cands0 := pool.filter (fun p => sameOldRef r p.2)
  if cands0.isEmpty then pool else cands0

/-- On a non-empty pool, `phase2Step` scans the candidate pool with
`bestCand` and branches on the 80 threshold. -/
theorem phase2Step_eq (pool : List (UKey × SecUnit)) (r : MatchRow) (hp : pool ≠ []) :
    phase2Step pool r =
      match bestCand (rowQuery r) (phase2Cands r pool) with
      | none => (r, pool)
      | some (bp, bs) =>
        if scoreLe (natScore 80) bs then
          ( _row_updates_from_new r bp.2 (statusAndSim (r.old_text.getD []) bp.2.text).1
            (statusAndSim (r.old_text.getD []) bp.2.text).2 "fuzzy_heading".data,
           eraseKey pool bp.1)
        else (r, pool) := by
  have hpe : pool.isEmpty = false := by simpa [List.isEmpty_iff] using hp
  have hcne : (phase2Cands r pool).isEmpty = false := by
    simp only [phase2Cands]
    split
    · exact hpe
    · rename_i h
      exact Bool.eq_false_iff.mpr h
  simp only [phase2Step, phase2Cands] at *
  rw [if_neg (by simp [hpe]), if_neg (by simp [hcne])]

/-- Nonempty candidate pool. -/
theorem phase2Cands_ne (r : MatchRow) (pool : List (UKey × SecUnit)) (hp : pool ≠ []) :
    phase2Cands r pool ≠ [] := by
  simp only [phase2Cands]
  split
  · exact hp
  · rename_i h
    exact fun he => h (by simp [he])

/-- C4.  Phase-2 fuzzy fallback, per provisionally-`Removed` record: the
record is handed to `phase2Step` with the current pool (first conjunct);
with an empty pool it is left `Removed` untouched (second conjunct); with
a non-empty pool the candidates are the pool entries sharing the old
`section_ref` — or the whole pool when none do — and `bestCand` picks a
candidate achieving the maximum heading token-set score; when that best
score reaches 80 the record is upgraded in place (new-side fields absorbed
from the best candidate, status and similarity recomputed by `_status`
from the two body texts and never `Removed`, method `fuzzy_heading`) and
the candidate leaves the pool; when the best score is below 80 the record
and the pool are unchanged. -/
theorem act_c4 (r : MatchRow) (rows : List MatchRow) (pool : List (UKey × SecUnit))
    (hst : r.status = "Removed".data) :
    phase2Outer (rows, pool) r = (rows ++ [(phase2Step pool r).1], (phase2Step pool r).2) ∧
    phase2Step [] r = (r, []) ∧
    (pool ≠ [] →
      ∃ bp bs, bestCand (rowQuery r) (phase2Cands r pool) = some (bp, bs) ∧
        bp ∈ phase2Cands r pool ∧
        token_set_score (rowQuery r) (candText bp.2) = bs ∧
        (∀ p ∈ phase2Cands r pool,
          scoreLe (token_set_score (rowQuery r) (candText p.2)) bs = true) ∧
        (scoreLe (natScore 80) bs = true →
          phase2Step pool r =
            ( _row_updates_from_new r bp.2 (statusAndSim (r.old_text.getD []) bp.2.text).1
              (statusAndSim (r.old_text.getD []) bp.2.text).2 "fuzzy_heading".data,
             eraseKey pool bp.1) ∧
          (phase2Step pool r).1.status = (statusAndSim (r.old_text.getD []) bp.2.text).1 ∧
          (phase2Step pool r).1.status ≠ "Removed".data ∧
          (phase2Step pool r).1.similarity =
            (statusAndSim (r.old_text.getD []) bp.2.text).2 ∧
          (phase2Step pool r).1.match_method = "fuzzy_heading".data ∧
          (phase2Step pool r).1.new_topic = some bp.2.topic ∧
          (phase2Step pool r).1.new_subtopic = some bp.2.subtopic ∧
          (phase2Step pool r).1.new_section_ref = some bp.2.section_ref ∧
          (phase2Step pool r).1.new_section_heading = some bp.2.section_heading ∧
          (phase2Step pool r).1.new_subsection_ref = some bp.2.subsection_ref ∧
          (phase2Step pool r).1.new_text = some bp.2.text) ∧
        (scoreLe (natScore 80) bs = false → phase2Step pool r = (r, pool))) := by
  refine ⟨by simp [phase2Outer, hst], rfl, ?_⟩
  intro hp
  obtain ⟨bp, bs, heq, hmem, hsc, hall⟩ :=
    bestCand_spec (rowQuery r) (phase2Cands r pool) (phase2Cands_ne r pool hp)
  have hred := phase2Step_eq pool r hp
  rw [heq] at hred
  dsimp only at hred
  refine ⟨bp, bs, heq, hmem, hsc, hall, ?_, ?_⟩
  · intro h80
    rw [hred, if_pos h80]
    have hm := statusAndSim_mem (r.old_text.getD []) bp.2.text
    have hne := fourStatuses_ne _ hm
    have hif : (if (statusAndSim (r.old_text.getD []) bp.2.text).1 = "Removed".data
        then "Modified".data else (statusAndSim (r.old_text.getD []) bp.2.text).1) =
        (statusAndSim (r.old_text.getD []) bp.2.text).1 := if_neg hne.1
    refine ⟨rfl, ?_, ?_, rfl, rfl, rfl, rfl, rfl, rfl, rfl, rfl⟩
    · simpa [ _row_updates_from_new] using hif
    · simp only [ _row_updates_from_new, hif]
      exact hne.1
  · intro h80
    rw [hred, if_neg (by simp [h80])]

/-- A concrete unmatched old unit for the C4 witness. -/
def c4Unit : SecUnit :=
  ⟨[], "PENALTIES".data, "section_7".data, "Section 7 Fines".data, [], "Old text.".data⟩

/-- Its provisional `Removed` row. -/
def c4Row : MatchRow :=
  _row (some c4Unit) none "Removed".data (natScore 0) "unmatched_old".data

/-- A concrete unconsumed new unit sharing the `section_ref`. -/
def c4NewUnit : SecUnit :=
  ⟨[], "PENALTIES".data, "section_7".data, "Section 7 Fines".data, [], "New text.".data⟩

/-- The concrete remaining pool. -/
def c4Pool : List (UKey × SecUnit) := [(unitKey c4NewUnit, c4NewUnit)]

/-- Witness for C4 at a concrete `Removed` row and pool. -/
theorem act_c4_witness :
    phase2Step [] c4Row = (c4Row, []) ∧
    phase2Outer ([], c4Pool) c4Row =
      ([] ++ [(phase2Step c4Pool c4Row).1], (phase2Step c4Pool c4Row).2) :=
  ⟨(act_c4 c4Row [] c4Pool rfl).2.1, (act_c4 c4Row [] c4Pool rfl).1⟩

/-- Position `j` is *active* for the self-comparison: `b2j` lists `j` under
its own token (its token survived the popularity purge). -/
def b2jActive (a : List Str) (b2j : List (Str × List Nat)) (j : Nat) : Prop :=
  j ∈ b2jGet b2j (a.getD j [])

instance (a : List Str) (b2j : List (Str × List Nat)) (j : Nat) :
    Decidable (b2jActive a b2j j) := by
  unfold b2jActive
  infer_instance

/-- The diagonal chain length: the number of consecutive active positions
ending at `j`, counted within `[alo, …]`.  On identical sequences this is
exactly the `j2len` chain value of `find_longest_match` on the diagonal. -/
def dchain (a : List Str) (b2j : List (Str × List Nat)) (alo : Nat) : Nat → Nat
  | 0 => if alo = 0 ∧ b2jActive a b2j 0 then 1 else 0
  | j + 1 =>
    if j + 1 < alo then 0
    else if b2jActive a b2j (j + 1) then dchain a b2j alo j + 1 else 0

/-- The diagonal chain never reaches below `alo`. -/
theorem dchain_le (a : List Str) (b2j : List (Str × List Nat)) (alo : Nat) :
    ∀ j, dchain a b2j alo j ≤ j + 1 - alo
  | 0 => by
    unfold dchain
    split
    · rename_i h
      omega
    · omega
  | j + 1 => by
    unfold dchain
    split
    · omega
    · split
      · have := dchain_le a b2j alo j
        omega
      · omega

/-- Unfolding the chain one step above `alo`. -/
theorem dchain_succ (a : List Str) (b2j : List (Str × List Nat)) (alo j : Nat)
    (h : alo ≤ j + 1) (ha : b2jActive a b2j (j + 1)) :
    dchain a b2j alo (j + 1) = dchain a b2j alo j + 1 := by
  rw [show dchain a b2j alo (j + 1) =
      if j + 1 < alo then 0
      else if b2jActive a b2j (j + 1) then dchain a b2j alo j + 1 else 0 from rfl]
  rw [if_neg (by omega), if_pos ha]

/-- An active position at or above `alo` has a positive chain. -/
theorem dchain_pos (a : List Str) (b2j : List (Str × List Nat)) (alo j : Nat)
    (h : alo ≤ j) (ha : b2jActive a b2j j) : 1 ≤ dchain a b2j alo j := by
  cases j with
  | zero =>
    unfold dchain
    rw [if_pos ⟨Nat.le_zero.mp h, ha⟩]
  | succ j =>
    rw [dchain_succ a b2j alo j h ha]
    omega

/-- The left extension loop on identical sequences walks all the way down
to `alo`. -/
theorem extLeft_self (a : List Str) (alo : Nat) :
    ∀ (fuel bi : Nat), bi - alo ≤ fuel → extLeft a a alo alo fuel bi bi = bi - alo := by
  intro fuel
  induction fuel with
  | zero =>
    intro bi h
    unfold extLeft
    omega
  | succ fuel ih =>
    intro bi h
    unfold extLeft
    by_cases hlt : alo < bi
    · rw [if_pos (by simp [hlt])]
      rw [ih (bi - 1) (by omega)]
      omega
    · rw [if_neg (by simp [hlt])]
      omega

/-- The right extension loop on identical sequences walks all the way up
to `ahi`. -/
theorem extRight_self (a : List Str) (ahi : Nat) :
    ∀ (fuel bi sz : Nat), ahi - (bi + sz) ≤ fuel →
      extRight a a ahi ahi fuel bi bi sz = ahi - (bi + sz) := by
  intro fuel
  induction fuel with
  | zero =>
    intro bi sz h
    unfold extRight
    omega
  | succ fuel ih =>
    intro bi sz h
    unfold extRight
    by_cases hlt : bi + sz < ahi
    · rw [if_pos (by simp [hlt])]
      rw [ih bi (sz + 1) (by omega)]
      omega
    · rw [if_neg (by simp [hlt])]
      omega

/-- Adding a position to a token extends that token's (first) entry. -/
theorem b2jGet_add_self (tok : Str) (i : Nat) :
    ∀ m, b2jGet (b2jAdd m tok i) tok = b2jGet m tok ++ [i]
  | [] => by simp [b2jAdd, b2jGet]
  | (t, is) :: rest => by
    by_cases h : t = tok
    · subst h
      simp [b2jAdd, b2jGet]
    · rw [show b2jAdd ((t, is) :: rest) tok i = (t, is) :: b2jAdd rest tok i from by
        simp [b2jAdd, h]]
      rw [show b2jGet ((t, is) :: b2jAdd rest tok i) tok = b2jGet (b2jAdd rest tok i) tok from by
        simp [b2jGet, h]]
      rw [show b2jGet ((t, is) :: rest) tok = b2jGet rest tok from by simp [b2jGet, h]]
      exact b2jGet_add_self tok i rest

/-- Adding a position to one token leaves other tokens' entries alone. -/
theorem b2jGet_add_other (tok tok' : Str) (i : Nat) (hne : tok' ≠ tok) :
    ∀ m, b2jGet (b2jAdd m tok i) tok' = b2jGet m tok'
  | [] => by
    simp only [b2jAdd, b2jGet]
    rw [if_neg (fun he : tok = tok' => hne he.symm)]
  | (t, is) :: rest => by
    by_cases h : t = tok
    · subst h
      simp only [b2jAdd, if_pos rfl, b2jGet]
      rw [if_neg (fun he : t = tok' => hne he.symm), if_neg (fun he : t = tok' => hne he.symm)]
    · simp only [b2jAdd, if_neg h, b2jGet]
      by_cases h2 : t = tok'
      · rw [if_pos h2, if_pos h2]
      · rw [if_neg h2, if_neg h2]
        exact b2jGet_add_other tok tok' i hne rest

/-- Every entry of `b2jAdd m tok i` is an old entry, the extended entry, or
the fresh entry. -/
theorem b2jAdd_entries (tok : Str) (i : Nat) :
    ∀ m e, e ∈ b2jAdd m tok i →
      e ∈ m ∨ (∃ is, (tok, is) ∈ m ∧ e = (tok, is ++ [i])) ∨ e = (tok, [i])
  | [], e, he => by
    simp only [b2jAdd, List.mem_singleton] at he
    exact Or.inr (Or.inr he)
  | (t, is) :: rest, e, he => by
    by_cases h : t = tok
    · subst h
      simp only [b2jAdd, if_pos rfl] at he
      cases he with
      | head => exact Or.inr (Or.inl ⟨is, List.mem_cons_self _ _, rfl⟩)
      | tail b h2 => exact Or.inl (List.mem_cons_of_mem _ h2)
    · simp only [b2jAdd, if_neg h] at he
      cases he with
      | head => exact Or.inl (List.mem_cons_self _ _)
      | tail b h2 =>
        rcases b2jAdd_entries tok i rest e h2 with h1 | h1 | h1
        · exact Or.inl (List.mem_cons_of_mem _ h1)
        · exact Or.inr (Or.inl ⟨h1.choose, List.mem_cons_of_mem _ h1.choose_spec.1,
            h1.choose_spec.2⟩)
        · exact Or.inr (Or.inr h1)

/-- Invariant of the `b2j` construction after processing the first `n`
positions of `b`: every listed position carries its own token and is below
`n`, every processed position is listed under its token, and every entry's
position list is strictly ascending. -/
def B2JGood (b : List Str) (m : List (Str × List Nat)) (n : Nat) : Prop :=
  (∀ e ∈ m, ∀ j ∈ e.2, b.getD j [] = e.1 ∧ j < n) ∧
  (∀ i, i < n → i ∈ b2jGet m (b.getD i [])) ∧
  (∀ e ∈ m, e.2.Pairwise (· < ·))

/-- One `b2jAdd` step preserves the construction invariant. -/
theorem B2JGood_add (b : List Str) (m : List (Str × List Nat)) (n : Nat)
    (hg : B2JGood b m n) (hn : n < b.length) :
    B2JGood b (b2jAdd m (b.getD n []) n) (n + 1) := by
  obtain ⟨h1, h2, h3⟩ := hg
  refine ⟨?_, ?_, ?_⟩
  · intro e he j hj
    rcases b2jAdd_entries (b.getD n []) n m e he with h | ⟨is, his, he2⟩ | he2
    · have := h1 e h j hj
      exact ⟨this.1, by omega⟩
    · subst he2
      simp only at hj
      rcases List.mem_append.mp hj with hj | hj
      · have := h1 _ his j hj
        exact ⟨this.1, by omega⟩
      · simp only [List.mem_singleton] at hj
        subst hj
        exact ⟨rfl, by omega⟩
    · subst he2
      simp only [List.mem_singleton] at hj
      subst hj
      exact ⟨rfl, by omega⟩
  · intro i hi
    by_cases he : b.getD i [] = b.getD n []
    · rw [he, b2jGet_add_self]
      rcases Nat.lt_succ_iff_lt_or_eq.mp hi with hi | hi
      · exact List.mem_append.mpr (Or.inl (he ▸ h2 i hi))
      · subst hi
        exact List.mem_append.mpr (Or.inr (List.mem_singleton.mpr rfl))
    · rw [b2jGet_add_other _ _ _ he]
      rcases Nat.lt_succ_iff_lt_or_eq.mp hi with hi | hi
      · exact h2 i hi
      · subst hi
        exact absurd rfl he
  · intro e he
    rcases b2jAdd_entries (b.getD n []) n m e he with h | ⟨is, his, he2⟩ | he2
    · exact h3 e h
    · subst he2
      simp only
      rw [List.pairwise_append]
      refine ⟨h3 _ his, List.pairwise_singleton _ _, ?_⟩
      intro x hx y hy
      simp only [List.mem_singleton] at hy
      subst hy
      exact (h1 _ his x hx).2
    · subst he2
      exact List.pairwise_singleton _ _

/-- `b2jAdd` extends an existing key in place or appends a fresh key. -/
theorem b2jAdd_keys (tok : Str) (i : Nat) :
    ∀ m : List (Str × List Nat), (b2jAdd m tok i).map Prod.fst =
      if tok ∈ m.map Prod.fst then m.map Prod.fst else m.map Prod.fst ++ [tok]
  | [] => by simp [b2jAdd]
  | (t, is) :: rest => by
    by_cases h : t = tok
    · subst h
      simp [b2jAdd]
    · simp only [b2jAdd, if_neg h, List.map_cons]
      rw [b2jAdd_keys tok i rest]
      by_cases h2 : tok ∈ rest.map Prod.fst
      · simp [h2]
      · rw [if_neg h2, if_neg (by
          simp only [List.map_cons, List.mem_cons, h2, or_false]
          exact fun he => h he.symm)]
        simp

/-- `b2jAdd` preserves distinctness of keys. -/
theorem b2jAdd_nodup (tok : Str) (i : Nat) (m : List (Str × List Nat))
    (h : (m.map Prod.fst).Nodup) : ((b2jAdd m tok i).map Prod.fst).Nodup := by
  rw [b2jAdd_keys]
  by_cases h2 : tok ∈ m.map Prod.fst
  · simpa [h2] using h
  · simp only [h2, if_false]
    simpa using List.Nodup.concat h2 h

/-- A lookup result is empty or is some entry of the map. -/
theorem b2jGet_entry (tok : Str) :
    ∀ m : List (Str × List Nat), b2jGet m tok = [] ∨ (tok, b2jGet m tok) ∈ m
  | [] => Or.inl rfl
  | (t, is) :: rest => by
    by_cases h : t = tok
    · subst h
      simp [b2jGet]
    · simp only [b2jGet, if_neg h]
      rcases b2jGet_entry tok rest with h1 | h1
      · exact Or.inl h1
      · exact Or.inr (List.mem_cons_of_mem _ h1)

/-- With distinct keys, lookup of a present entry returns its list. -/
theorem b2jGet_of_mem (tok : Str) (is : List Nat) :
    ∀ m : List (Str × List Nat), (m.map Prod.fst).Nodup → (tok, is) ∈ m →
      b2jGet m tok = is
  | [], _, hm => by cases hm
  | (t, is') :: rest, hn, hm => by
    cases hm with
    | head =>
      simp [b2jGet]
    | tail b h2 =>
      have ht : t ≠ tok := by
        intro he
        subst he
        have : t ∈ rest.map Prod.fst := List.mem_map_of_mem Prod.fst h2
        exact (List.nodup_cons.mp (by simpa using hn)).1 this
      simp only [b2jGet, if_neg ht]
      exact b2jGet_of_mem tok is rest (List.nodup_cons.mp (by simpa using hn)).2 h2

/-- The `B2JGood` invariant plus key distinctness, transported along the
`enumFrom` fold of `__chain_b`. -/
theorem b2jBuild_good_aux (b : List Str) :
    ∀ (l : List Str) (n : Nat) (m : List (Str × List Nat)),
      (∀ k, k < l.length → l.getD k [] = b.getD (n + k) []) →
      n + l.length = b.length →
      B2JGood b m n → (m.map Prod.fst).Nodup →
      B2JGood b ((List.enumFrom n l).foldl (fun m p => b2jAdd m p.2 p.1) m) b.length ∧
        (((List.enumFrom n l).foldl (fun m p => b2jAdd m p.2 p.1) m).map Prod.fst).Nodup
  | [], n, m, hl, hlen, hg, hnd => by
    simp only [List.enumFrom, List.foldl_nil]
    rw [show n = b.length from by simpa using hlen] at hg
    exact ⟨hg, hnd⟩
  | x :: xs, n, m, hl, hlen, hg, hnd => by
    have hx : x = b.getD n [] := by
      have := hl 0 (by simp)
      simpa using this
    simp only [List.enumFrom, List.foldl_cons]
    have hn : n < b.length := by
      simp only [List.length_cons] at hlen
      omega
    have step := B2JGood_add b m n hg hn
    have stepnd := b2jAdd_nodup (b.getD n []) n m hnd
    rw [show b2jAdd m x n = b2jAdd m (b.getD n []) n from by rw [hx]]
    refine b2jBuild_good_aux b xs (n + 1) (b2jAdd m (b.getD n []) n) ?_ ?_ step stepnd
    · intro k hk
      have := hl (k + 1) (by simpa using Nat.succ_lt_succ hk)
      simpa [Nat.add_assoc, Nat.add_comm 1 k] using this
    · simp only [List.length_cons] at hlen
      omega

/-- `b2jBuild` satisfies the construction invariant with distinct keys. -/
theorem b2jBuild_good (b : List Str) :
    B2JGood b (b2jBuild b) b.length ∧ ((b2jBuild b).map Prod.fst).Nodup := by
  unfold b2jBuild
  rw [show b.enum = List.enumFrom 0 b from rfl]
  refine b2jBuild_good_aux b b 0 [] (fun k hk => by simp) (by simp) ?_ (by simp)
  exact ⟨fun e he => absurd he (List.not_mem_nil e), fun i hi => absurd hi (by omega),
    fun e he => absurd he (List.not_mem_nil e)⟩

/-- The three facts about `b2jPurged b` that the diagonal argument needs:
every listed position carries its own token, every position below
`len(b)` is either fully purged with its token or listed under it, and
every position list is strictly ascending. -/
theorem b2jPurged_good (b : List Str) :
    (∀ tok j, j ∈ b2jGet (b2jPurged b) tok → b.getD j [] = tok) ∧
    (∀ i, i < b.length → b2jGet (b2jPurged b) (b.getD i []) = [] ∨
      i ∈ b2jGet (b2jPurged b) (b.getD i [])) ∧
    (∀ tok, (b2jGet (b2jPurged b) tok).Pairwise (· < ·)) := by
  obtain ⟨⟨hown, hcomp, hsort⟩, hnd⟩ := b2jBuild_good b
  have hsub : ∀ e, e ∈ b2jPurged b → e ∈ b2jBuild b := by
    intro e he
    unfold b2jPurged at he
    split at he
    · exact List.mem_of_mem_filter he
    · exact he
  refine ⟨?_, ?_, ?_⟩
  · intro tok j hj
    rcases b2jGet_entry tok (b2jPurged b) with h | h
    · rw [h] at hj
      cases hj
    · exact (hown _ (hsub _ h) j hj).1
  · intro i hi
    rcases b2jGet_entry (b.getD i []) (b2jPurged b) with h | h
    · exact Or.inl h
    · refine Or.inr ?_
      have hmem := hsub _ h
      have := b2jGet_of_mem (b.getD i []) _ (b2jBuild b) hnd hmem
      rw [← this]
      exact hcomp i hi
  · intro tok
    rcases b2jGet_entry tok (b2jPurged b) with h | h
    · rw [h]
      exact List.Pairwise.nil
    · exact hsort _ (hsub _ h)

/-- Invariant of the running best block on identical sequences: diagonal
and within the range. -/
def BestInv (alo ahi : Nat) (best : Nat × Nat × Nat) : Prop :=
  best.1 = best.2.1 ∧ alo ≤ best.1 ∧ best.1 + best.2.2 ≤ ahi

/-- History invariant: the best size dominates every diagonal chain of an
already-processed row. -/
def HistInv (a : List Str) (b2j : List (Str × List Nat)) (alo upto bs : Nat) : Prop :=
  ∀ j', alo ≤ j' → j' < upto → dchain a b2j alo j' ≤ bs

/-- One unfolding of the inner loop of `find_longest_match`. -/
theorem flmInner_cons (alo ahi i : Nat) (f : Nat → Nat) (j : Nat) (rest : List Nat)
    (nf : Nat → Nat) (best : Nat × Nat × Nat) :
    flmInner alo ahi i f (j :: rest) nf best =
      if j < alo then flmInner alo ahi i f rest nf best
      else if ahi ≤ j then (nf, best)
      else
        flmInner alo ahi i f rest
          (fun x => if x = j then (if j = 0 then 0 else f (j - 1)) + 1 else nf x)
          (if best.2.2 < (if j = 0 then 0 else f (j - 1)) + 1 then
            (i + 1 - ((if j = 0 then 0 else f (j - 1)) + 1),
             j + 1 - ((if j = 0 then 0 else f (j - 1)) + 1),
             (if j = 0 then 0 else f (j - 1)) + 1)
          else best) := rfl

/-- The inner loop of `find_longest_match` on identical sequences keeps the
best block diagonal and in range, extends the history to the current row,
and computes a new chain row dominated by the diagonal chains with the
diagonal entry exact. -/
theorem flmInner_inv
    (a : List Str) (b2j : List (Str × List Nat)) (alo ahi : Nat)
    (Htok : ∀ tok j, j ∈ b2jGet b2j tok → a.getD j [] = tok)
    (i : Nat) (hi1 : alo ≤ i) (hi2 : i < ahi)
    (hact : b2jActive a b2j i)
    (f : Nat → Nat)
    (F1 : ∀ j, f j ≤ dchain a b2j alo j)
    (F2 : ∀ j, f j = 0 ∨ ∃ i', i' + 1 = i ∧ f j ≤ dchain a b2j alo i')
    (F3 : ∀ i', i' + 1 = i → dchain a b2j alo i' ≤ f i') :
    ∀ js : List Nat, ∀ (nf : Nat → Nat) (best : Nat × Nat × Nat),
      (∀ j ∈ js, j ∈ b2jGet b2j (a.getD i [])) →
      js.Pairwise (· < ·) →
      (i ∈ js ∨ dchain a b2j alo i ≤ best.2.2) →
      (i ∈ js ∨ dchain a b2j alo i ≤ nf i) →
      BestInv alo ahi best →
      HistInv a b2j alo i best.2.2 →
      (∀ j, nf j ≤ dchain a b2j alo j) →
      (∀ j, nf j = 0 ∨ nf j ≤ dchain a b2j alo i) →
      BestInv alo ahi (flmInner alo ahi i f js nf best).2 ∧
      HistInv a b2j alo (i + 1) (flmInner alo ahi i f js nf best).2.2.2 ∧
      (∀ j, (flmInner alo ahi i f js nf best).1 j ≤ dchain a b2j alo j) ∧
      (∀ j, (flmInner alo ahi i f js nf best).1 j = 0 ∨
        (flmInner alo ahi i f js nf best).1 j ≤ dchain a b2j alo i) ∧
      dchain a b2j alo i ≤ (flmInner alo ahi i f js nf best).1 i := by
  intro js
  induction js with
  | nil =>
    intro nf best hJ1 hJ2 hD hN3 hB hH hN1 hN2
    have hD' : dchain a b2j alo i ≤ best.2.2 := hD.resolve_left (List.not_mem_nil i)
    have hN3' : dchain a b2j alo i ≤ nf i := hN3.resolve_left (List.not_mem_nil i)
    refine ⟨hB, ?_, hN1, hN2, hN3'⟩
    intro j' h1 h2
    rcases Nat.lt_succ_iff_lt_or_eq.mp h2 with h2 | h2
    · exact hH j' h1 h2
    · exact h2 ▸ hD'
  | cons j rest ih =>
    intro nf best hJ1 hJ2 hD hN3 hB hH hN1 hN2
    have hjrow : j ∈ b2jGet b2j (a.getD i []) := hJ1 j (List.mem_cons_self j rest)
    have hjtok : a.getD j [] = a.getD i [] := Htok _ j hjrow
    have hjact : b2jActive a b2j j := by
      unfold b2jActive
      rw [hjtok]
      exact hjrow
    have hrest_gt : ∀ x ∈ rest, j < x := (List.pairwise_cons.mp hJ2).1
    rw [flmInner_cons]
    by_cases hblo : j < alo
    · rw [if_pos hblo]
      have hij : i ≠ j := by omega
      have hD' : i ∈ rest ∨ dchain a b2j alo i ≤ best.2.2 := by
        rcases hD with hD | hD
        · rcases List.mem_cons.mp hD with h | h
          · exact absurd h.symm (by omega)
          · exact Or.inl h
        · exact Or.inr hD
      have hN3' : i ∈ rest ∨ dchain a b2j alo i ≤ nf i := by
        rcases hN3 with h | h
        · rcases List.mem_cons.mp h with h | h
          · exact absurd h.symm (by omega)
          · exact Or.inl h
        · exact Or.inr h
      exact ih nf best (fun x hx => hJ1 x (List.mem_cons_of_mem j hx))
        (List.pairwise_cons.mp hJ2).2 hD' hN3' hB hH hN1 hN2
    · rw [if_neg hblo]
      by_cases hbhi : ahi ≤ j
      · rw [if_pos hbhi]
        have hij : i < j := by omega
        have hnotin : ¬ i ∈ j :: rest := by
          intro h
          rcases List.mem_cons.mp h with h | h
          · omega
          · exact absurd (hrest_gt i h) (by omega)
        have hD' : dchain a b2j alo i ≤ best.2.2 := hD.resolve_left hnotin
        have hN3' : dchain a b2j alo i ≤ nf i := hN3.resolve_left hnotin
        refine ⟨hB, ?_, hN1, hN2, hN3'⟩
        intro j' h1 h2
        rcases Nat.lt_succ_iff_lt_or_eq.mp h2 with h2 | h2
        · exact hH j' h1 h2
        · exact h2 ▸ hD'
      · rw [if_neg hbhi]
        have halo_j : alo ≤ j := by omega
        have hj_ahi : j < ahi := by omega
        have hk_dj : (if j = 0 then 0 else f (j - 1)) + 1 ≤ dchain a b2j alo j := by
          by_cases hj0 : j = 0
          · subst hj0
            rw [if_pos rfl]
            exact dchain_pos a b2j alo 0 halo_j hjact
          · rw [if_neg hj0]
            have := F1 (j - 1)
            have hsucc : dchain a b2j alo j = dchain a b2j alo (j - 1) + 1 := by
              rw [show j = (j - 1) + 1 from by omega] at hjact ⊢
              exact dchain_succ a b2j alo (j - 1) (by omega) hjact
            omega
        have hk_di : (if j = 0 then 0 else f (j - 1)) + 1 ≤ dchain a b2j alo i := by
          by_cases hj0 : j = 0
          · rw [if_pos hj0]
            exact dchain_pos a b2j alo i hi1 hact
          · rw [if_neg hj0]
            rcases F2 (j - 1) with h0 | ⟨i', hi', hle⟩
            · rw [h0]
              exact dchain_pos a b2j alo i hi1 hact
            · have hsucc : dchain a b2j alo i = dchain a b2j alo i' + 1 := by
                rw [← hi'] at hact hi1 ⊢
                exact dchain_succ a b2j alo i' hi1 hact
              omega
        set k := (if j = 0 then 0 else f (j - 1)) + 1 with hkdef
        by_cases hji : j = i
        · subst hji
          have hk_exact : dchain a b2j alo j ≤ k := by
            by_cases hj0 : j = 0
            · subst hj0
              have := dchain_le a b2j alo 0
              rw [hkdef, if_pos rfl]
              omega
            · have h3 := F3 (j - 1) (by omega)
              have hsucc : dchain a b2j alo j = dchain a b2j alo (j - 1) + 1 := by
                rw [show j = (j - 1) + 1 from by omega] at hjact ⊢
                exact dchain_succ a b2j alo (j - 1) (by omega) hjact
              rw [hkdef, if_neg hj0]
              omega
          have hnotin : ¬ j ∈ rest := fun h => absurd (hrest_gt j h) (by omega)
          by_cases hup : best.2.2 < k
          · rw [if_pos hup]
            refine ih _ _ (fun x hx => hJ1 x (List.mem_cons_of_mem j hx))
              (List.pairwise_cons.mp hJ2).2 ?_ ?_ ?_ ?_ ?_ ?_
            · refine Or.inr ?_
              simp only
              omega
            · refine Or.inr ?_
              exact hk_exact.trans (if_pos rfl).symm.le
            · have hk_le : k ≤ j + 1 - alo := by
                have := dchain_le a b2j alo j
                omega
              exact ⟨rfl, by simp only; omega, by simp only; omega⟩
            · intro j' h1 h2
              have := hH j' h1 h2
              simp only
              omega
            · intro x
              by_cases hx : x = j
              · subst hx
                simp only [if_pos rfl]
                exact hk_dj
              · simp only [if_neg hx]
                exact hN1 x
            · intro x
              by_cases hx : x = j
              · subst hx
                simp only [if_pos rfl]
                exact Or.inr hk_di
              · simp only [if_neg hx]
                exact hN2 x
          · rw [if_neg hup]
            refine ih _ _ (fun x hx => hJ1 x (List.mem_cons_of_mem j hx))
              (List.pairwise_cons.mp hJ2).2 ?_ ?_ hB hH ?_ ?_
            · refine Or.inr (by omega)
            · refine Or.inr ?_
              exact hk_exact.trans (if_pos rfl).symm.le
            · intro x
              by_cases hx : x = j
              · subst hx
                simp only [if_pos rfl]
                exact hk_dj
              · simp only [if_neg hx]
                exact hN1 x
            · intro x
              by_cases hx : x = j
              · subst hx
                simp only [if_pos rfl]
                exact Or.inr hk_di
              · simp only [if_neg hx]
                exact hN2 x
        · -- j ≠ i: no update can occur
          have hnoup : ¬ best.2.2 < k := by
            by_cases hlt : j < i
            · have := hH j halo_j (by omega)
              omega
            · have hgt : i < j := by omega
              have hnotin : ¬ i ∈ j :: rest := by
                intro h
                rcases List.mem_cons.mp h with h | h
                · omega
                · exact absurd (hrest_gt i h) (by omega)
              have := hD.resolve_left hnotin
              omega
          rw [if_neg hnoup]
          have hD' : i ∈ rest ∨ dchain a b2j alo i ≤ best.2.2 := by
            rcases hD with h | h
            · rcases List.mem_cons.mp h with h | h
              · exact absurd h.symm hji
              · exact Or.inl h
            · exact Or.inr h
          have hN3' : i ∈ rest ∨ dchain a b2j alo i ≤
              (fun x => if x = j then k else nf x) i := by
            rcases hN3 with h | h
            · rcases List.mem_cons.mp h with h | h
              · exact absurd h.symm hji
              · exact Or.inl h
            · refine Or.inr ?_
              simp only [if_neg (fun he : i = j => hji he.symm)]
              exact h
          refine ih _ _ (fun x hx => hJ1 x (List.mem_cons_of_mem j hx))
            (List.pairwise_cons.mp hJ2).2 hD' hN3' hB hH ?_ ?_
          · intro x
            by_cases hx : x = j
            · subst hx
              simp only [if_pos rfl]
              exact hk_dj
            · simp only [if_neg hx]
              exact hN1 x
          · intro x
            by_cases hx : x = j
            · subst hx
              simp only [if_pos rfl]
              exact Or.inr hk_di
            · simp only [if_neg hx]
              exact hN2 x

/-- An inactive position has a zero diagonal chain. -/
theorem dchain_inactive (a : List Str) (b2j : List (Str × List Nat)) (alo j : Nat)
    (h : ¬ b2jActive a b2j j) : dchain a b2j alo j = 0 := by
  cases j with
  | zero =>
    unfold dchain
    rw [if_neg (fun hc => h hc.2)]
  | succ j =>
    unfold dchain
    simp [h]

/-- One unfolding of the row loop of `find_longest_match`. -/
theorem flmRows_cons (a : List Str) (b2j : List (Str × List Nat)) (blo bhi i : Nat)
    (is : List Nat) (f : Nat → Nat) (best : Nat × Nat × Nat) :
    flmRows a b2j blo bhi (i :: is) f best =
      flmRows a b2j blo bhi is
        (flmInner blo bhi i f (b2jGet b2j (a.getD i [])) (fun _ => 0) best).1
        (flmInner blo bhi i f (b2jGet b2j (a.getD i [])) (fun _ => 0) best).2 := rfl

/-- The row loop of `find_longest_match` on identical sequences keeps the
best block diagonal and in range and extends the history through all
processed rows. -/
theorem flmRows_inv
    (a : List Str) (b2j : List (Str × List Nat)) (alo ahi : Nat)
    (Htok : ∀ tok j, j ∈ b2jGet b2j tok → a.getD j [] = tok)
    (Hcomp : ∀ i, i < a.length →
      b2jGet b2j (a.getD i []) = [] ∨ i ∈ b2jGet b2j (a.getD i []))
    (Hsort : ∀ tok, (b2jGet b2j tok).Pairwise (· < ·))
    (hlen : ahi ≤ a.length) :
    ∀ (n i : Nat) (f : Nat → Nat) (best : Nat × Nat × Nat),
      alo ≤ i → i + n ≤ ahi →
      (∀ j, f j ≤ dchain a b2j alo j) →
      (∀ j, f j = 0 ∨ ∃ i', i' + 1 = i ∧ f j ≤ dchain a b2j alo i') →
      (∀ i', i' + 1 = i → dchain a b2j alo i' ≤ f i') →
      BestInv alo ahi best →
      HistInv a b2j alo i best.2.2 →
      BestInv alo ahi (flmRows a b2j alo ahi (List.range' i n) f best) ∧
      HistInv a b2j alo (i + n) (flmRows a b2j alo ahi (List.range' i n) f best).2.2 := by
  intro n
  induction n with
  | zero =>
    intro i f best hi1 hi2 F1 F2 F3 hB hH
    exact ⟨hB, hH⟩
  | succ n ih =>
    intro i f best hi1 hi2 F1 F2 F3 hB hH
    rw [List.range'_succ, flmRows_cons]
    have hsum : i + (n + 1) = (i + 1) + n := by omega
    rw [hsum]
    have hi_len : i < a.length := by omega
    rcases Hcomp i hi_len with hrow | hrow
    · -- inactive row: the inner loop is a no-op on the empty position list
      rw [hrow]
      have hinact : ¬ b2jActive a b2j i := by
        unfold b2jActive
        rw [hrow]
        exact List.not_mem_nil i
      have hdz : dchain a b2j alo i = 0 := dchain_inactive a b2j alo i hinact
      refine ih (i + 1) _ _ (by omega) (by omega) (fun j => Nat.zero_le _)
        (fun j => Or.inl rfl) ?_ hB ?_
      · intro i' hi'
        have : i' = i := by omega
        subst this
        omega
      · intro j' h1 h2
        rcases Nat.lt_succ_iff_lt_or_eq.mp h2 with h2 | h2
        · exact hH j' h1 h2
        · rw [h2, hdz]
          exact Nat.zero_le _
    · -- active row: apply the inner-loop invariant
      have hact : b2jActive a b2j i := hrow
      have hmain := flmInner_inv a b2j alo ahi Htok i hi1 (by omega) hact f F1 F2 F3
        (b2jGet b2j (a.getD i [])) (fun _ => 0) best
        (fun j hj => hj) (Hsort _) (Or.inl hrow) (Or.inl hrow) hB hH
        (fun j => Nat.zero_le _) (fun j => Or.inl rfl)
      obtain ⟨hB', hH', hN1', hN2', hN3'⟩ := hmain
      refine ih (i + 1) _ _ (by omega) (by omega) hN1' ?_ ?_ hB' hH'
      · intro j
        rcases hN2' j with h | h
        · exact Or.inl h
        · exact Or.inr ⟨i, rfl, h⟩
      · intro i' hi'
        have : i' = i := by omega
        subst this
        exact hN3'

/-- `find_longest_match` of a list against itself over symmetric ranges
returns the full diagonal range: the dynamic-programming phase leaves a
diagonal in-range best block and the two extension loops stretch it to
`[alo, ahi)`. -/
theorem findLongestMatch_self
    (a : List Str) (b2j : List (Str × List Nat)) (alo ahi : Nat)
    (Htok : ∀ tok j, j ∈ b2jGet b2j tok → a.getD j [] = tok)
    (Hcomp : ∀ i, i < a.length →
      b2jGet b2j (a.getD i []) = [] ∨ i ∈ b2jGet b2j (a.getD i []))
    (Hsort : ∀ tok, (b2jGet b2j tok).Pairwise (· < ·))
    (h1 : alo ≤ ahi) (h2 : ahi ≤ a.length) :
    findLongestMatch a a b2j alo ahi alo ahi = (alo, alo, ahi - alo) := by
  have hrows := flmRows_inv a b2j alo ahi Htok Hcomp Hsort h2 (ahi - alo) alo
    (fun _ => 0) (alo, alo, 0) (Nat.le_refl alo) (by omega)
    (fun j => Nat.zero_le _) (fun j => Or.inl rfl)
    (fun i' hi' => by
      have := dchain_le a b2j alo i'
      omega)
    ⟨rfl, Nat.le_refl alo, show alo + 0 ≤ ahi from by omega⟩
    (fun j' ha hb => absurd (lt_of_le_of_lt ha hb) (lt_irrefl _))
  obtain ⟨⟨hdiag, hge, hrange⟩, _⟩ := hrows
  rcases hE : flmRows a b2j alo ahi (List.range' alo (ahi - alo)) (fun _ => 0) (alo, alo, 0)
    with ⟨bi, bj, bs⟩
  rw [hE] at hdiag hge hrange
  dsimp only at hdiag hge hrange
  unfold findLongestMatch
  rw [hE]
  dsimp only
  subst hdiag
  have hl : extLeft a a alo alo bi bi bi = bi - alo :=
    extLeft_self a alo bi bi (by omega)
  rw [hl]
  have hbi : bi - (bi - alo) = alo := by omega
  rw [hbi]
  have hr : extRight a a ahi ahi ahi alo alo (bs + (bi - alo)) =
      ahi - (alo + (bs + (bi - alo))) :=
    extRight_self a ahi ahi alo (bs + (bi - alo)) (by omega)
  rw [hr]
  have hfin : bs + (bi - alo) + (ahi - (alo + (bs + (bi - alo)))) = ahi - alo := by omega
  rw [hfin]

/-- `get_matching_blocks` of a list against itself: one full-length block
(when non-empty) followed by the sentinel. -/
theorem getMatchingBlocks_self (a : List Str) :
    getMatchingBlocks a a =
      if a.length = 0 then [(0, 0, 0)]
      else [(0, 0, a.length), (a.length, a.length, 0)] := by
  obtain ⟨Htok, Hcomp, Hsort⟩ := b2jPurged_good a
  have hflm : findLongestMatch a a (b2jPurged a) 0 a.length 0 a.length =
      (0, 0, a.length) :=
    findLongestMatch_self a (b2jPurged a) 0 a.length Htok Hcomp Hsort
      (Nat.zero_le _) (Nat.le_refl _)
  unfold getMatchingBlocks
  rw [show 2 * a.length + 2 = (2 * a.length + 1) + 1 from rfl]
  rw [show matchingBlocksAux a a (b2jPurged a) ((2 * a.length + 1) + 1)
      [(0, a.length, 0, a.length)] [] =
      (if (findLongestMatch a a (b2jPurged a) 0 a.length 0 a.length).2.2 = 0 then
        matchingBlocksAux a a (b2jPurged a) (2 * a.length + 1) [] []
      else
        matchingBlocksAux a a (b2jPurged a) (2 * a.length + 1)
          ((if (findLongestMatch a a (b2jPurged a) 0 a.length 0 a.length).1 +
                (findLongestMatch a a (b2jPurged a) 0 a.length 0 a.length).2.2 < a.length &&
              (findLongestMatch a a (b2jPurged a) 0 a.length 0 a.length).2.1 +
                (findLongestMatch a a (b2jPurged a) 0 a.length 0 a.length).2.2 < a.length then
            [((findLongestMatch a a (b2jPurged a) 0 a.length 0 a.length).1 +
                (findLongestMatch a a (b2jPurged a) 0 a.length 0 a.length).2.2, a.length,
              (findLongestMatch a a (b2jPurged a) 0 a.length 0 a.length).2.1 +
                (findLongestMatch a a (b2jPurged a) 0 a.length 0 a.length).2.2, a.length)]
          else []) ++
            (if 0 < (findLongestMatch a a (b2jPurged a) 0 a.length 0 a.length).1 &&
                0 < (findLongestMatch a a (b2jPurged a) 0 a.length 0 a.length).2.1 then
              [(0, (findLongestMatch a a (b2jPurged a) 0 a.length 0 a.length).1, 0,
                (findLongestMatch a a (b2jPurged a) 0 a.length 0 a.length).2.1)]
            else []) ++ [])
          ([] ++ [findLongestMatch a a (b2jPurged a) 0 a.length 0 a.length])) from rfl]
  rw [hflm]
  dsimp only
  by_cases h : a.length = 0
  · rw [if_pos h, if_pos h]
    rw [show matchingBlocksAux a a (b2jPurged a) (2 * a.length + 1) [] [] = [] from rfl]
    simp [mergeAdjacent, h]
  · rw [if_neg h, if_neg h]
    have hlt : ¬ (0 + a.length < a.length && 0 + a.length < a.length) = true := by
      simp
    rw [if_neg hlt]
    have hz : ¬ (0 < 0 && 0 < 0) = true := by simp
    rw [if_neg hz]
    rw [show matchingBlocksAux a a (b2jPurged a) (2 * a.length + 1) ([] ++ [] ++ [])
        ([] ++ [(0, 0, a.length)]) = [(0, 0, a.length)] from rfl]
    rw [show List.foldr insBlock [] [(0, 0, a.length)] = [(0, 0, a.length)] from rfl]
    rw [show mergeAdjacent [(0, 0, a.length)] (0, 0, 0) =
        mergeAdjacent [] (0, 0, 0 + a.length) from rfl]
    rw [show mergeAdjacent [] (0, 0, 0 + a.length) =
        if (0 + a.length : Nat) = 0 then [] else [((0 : Nat), (0 : Nat), 0 + a.length)]
      from rfl]
    rw [if_neg (by omega)]
    simp

/-- `get_opcodes` of a list against itself: exactly one `equal` opcode over
the whole range, or none when the list is empty. -/
theorem getOpcodes_self (a : List Str) :
    getOpcodes a a =
      if a.length = 0 then []
      else [("equal".data, 0, a.length, 0, a.length)] := by
  unfold getOpcodes
  rw [getMatchingBlocks_self]
  by_cases h : a.length = 0
  · rw [if_pos h, if_pos h]
    rfl
  · rw [if_neg h, if_neg h]
    unfold opcodesAux
    simp [opcodesAux, h]

/-- `inline_diff` of a text against itself returns the whitespace tokens
joined by single spaces: the single `equal` opcode copies the token list
verbatim and no `<del>`/`<ins>` piece is emitted. -/
theorem inline_diff_self (T : Str) : inline_diff T T = joinSpace (pySplit T) := by
  simp only [inline_diff]
  rw [getOpcodes_self]
  by_cases h : (pySplit T).length = 0
  · rw [if_pos h]
    rw [List.length_eq_zero.mp h]
    rfl
  · rw [if_neg h]
    simp only [List.foldl_cons, List.foldl_nil]
    simp

/-- `pat` occurs at the start of the string. -/
def strStartsWith : Str → Str → Bool
  | [], _ => true
  | _ :: _, [] => false
  | p :: ps, c :: cs => decide (p = c) && strStartsWith ps cs

/-- `pat` occurs as a contiguous substring (Python `pat in s`). -/
def strContains (pat : Str) : Str → Bool
  | [] => strStartsWith pat []
  | c :: cs => strStartsWith pat (c :: cs) || strContains pat cs

/-- C9 (amended): for every text `T`, comparing `T` with itself yields only
`equal` opcodes — exactly one spanning all tokens, or none when `T` has no
tokens — and `inline_diff(T, T)` equals `T`'s whitespace-delimited tokens
joined by single spaces, with no `<del>`/`<ins>` piece emitted by the
differ itself. -/
theorem act_c9 (T : Str) :
    getOpcodes (pySplit T) (pySplit T) =
      (if (pySplit T).length = 0 then []
       else [("equal".data, 0, (pySplit T).length, 0, (pySplit T).length)]) ∧
    inline_diff T T = joinSpace (pySplit T) :=
  ⟨getOpcodes_self (pySplit T), inline_diff_self T⟩

/-- C9 counterexample to the literal claim: on the text `"<del>"` the
self-diff output is the token `<del>` itself, so the output does contain a
deletion marker even though no marker was emitted by the differ. -/
theorem act_c9_counterexample :
    inline_diff "<del>".data "<del>".data = "<del>".data ∧
    strContains "<del>".data (inline_diff "<del>".data "<del>".data) = true := by
  constructor
  · rfl
  · rfl
